import Mathlib

/-!
Verification of the inline-checker analysis pipeline and overlay renderer.

Shallow embedding of the JavaScript sources:
- `src/inline-checker/analysis/TextAnalyzer.js`
- `src/inline-checker/analysis/IssueDetector.js`
- `src/inline-checker/analysis/AnalysisEngine.js`
- `AnalysisCache` (content-script bundle)
- `src/inline-checker/visual/UnderlineRenderer.js`
- `src/inline-checker/visual/OverlayPositioner.js`

Text is modelled as `List Char`; JavaScript numbers that are used as integer
indices are modelled as `Int` (all relevant arithmetic stays exact), and the
positioner's fractional coordinates as `ℚ`.  `Date.now()` is passed in
explicitly as a `Nat` clock value wherever the code reads it.
-/

namespace JsStr

/-- Whitespace characters recognised by JavaScript `trim` / `\s` for the
character set that can occur in this code base. -/
def isWs (c : Char) : Bool :=
  c = ' ' || c = '\t' || c = '\n' || c = '\r' || c = Char.ofNat 11 || c = Char.ofNat 12

/-- JavaScript `String.prototype.trim`. -/
def jsTrim (s : List Char) : List Char :=
  ((s.dropWhile isWs).reverse.dropWhile isWs).reverse

/-- Slice `s[lo..hi)` for `Nat` bounds (callers guarantee `lo ≤ hi`;
out-of-range bounds clamp, as in JavaScript). -/
def sliceNat (s : List Char) (lo hi : Nat) : List Char :=
  (s.take hi).drop lo

/-- JavaScript `String.prototype.substring(a, b)` with both arguments given:
negative values clamp to `0`, values above the length clamp to the length,
and the two bounds are swapped when `a > b`. -/
def jsSubstring (s : List Char) (a b : Int) : List Char :=
  let n : Int := s.length
  let a2 := min (max a 0) n
  let b2 := min (max b 0) n
  sliceNat s (min a2 b2).toNat (max a2 b2).toNat

/-- JavaScript `String.prototype.lastIndexOf(c, fromIdx)` for a single
character: the largest index `i ≤ min fromIdx (length-1)` with `s[i] = c`,
or `-1`.  (The JS quirk that a negative `fromIdx` still inspects index 0 is
not reachable from this code base: every call site passes a positive index.) -/
def jsLastIndexOf (s : List Char) (c : Char) (fromIdx : Int) : Int :=
  let m : Int := min fromIdx ((s.length : Int) - 1)
  let cand := (List.range s.length).filter
    (fun i => decide ((Int.ofNat i) ≤ m) && (s.getD i (Char.ofNat 0) == c))
  match cand.getLast? with
  | some i => (i : Int)
  | none => -1

/-- Exact rational addition, written out on numerator/denominator so that
it evaluates by kernel reduction (the library's `Rat.add` is
`@[irreducible]`); `mkRat` renormalizes. -/
def qadd (a b : ℚ) : ℚ :=
  mkRat (a.num * b.den + b.num * a.den) (a.den * b.den)

/-- Exact rational subtraction (kernel-reducible). -/
def qsub (a b : ℚ) : ℚ :=
  mkRat (a.num * b.den - b.num * a.den) (a.den * b.den)

/-- Exact rational multiplication (kernel-reducible). -/
def qmul (a b : ℚ) : ℚ :=
  mkRat (a.num * b.num) (a.den * b.den)

/-- Exact rational division (kernel-reducible); division by zero yields 0,
matching `mkRat`'s convention (never reached by the modelled code on the
inputs of interest). -/
def qdiv (a b : ℚ) : ℚ :=
  mkRat (a.num * b.den * (if b.num < 0 then -1 else 1)) (a.den * b.num.natAbs)

/-- Rational `≤` by cross-multiplication (denominators are positive). -/
def qle (a b : ℚ) : Bool :=
  decide (a.num * (b.den : Int) ≤ b.num * (a.den : Int))

/-- Rational `<` by cross-multiplication. -/
def qlt (a b : ℚ) : Bool :=
  decide (a.num * (b.den : Int) < b.num * (a.den : Int))

/-- JS `Math.min` on exact rationals. -/
def qmin (a b : ℚ) : ℚ := if qle a b then a else b

/-- JS `Math.max` on exact rationals. -/
def qmax (a b : ℚ) : ℚ := if qle a b then b else a

/-- JS `Math.round`: `⌊x + 1/2⌋`, ties toward `+∞` (kernel-reducible floor
via flooring integer division). -/
def jsRound (a : ℚ) : Int :=
  (qadd a (mkRat 1 2)).num.fdiv ((qadd a (mkRat 1 2)).den : Int)

/-- JavaScript `x || d` for an optional integer field (`undefined`, `NaN`
and `0` all fall back to the default). -/
def jsOrInt (o : Option Int) (d : Int) : Int :=
  match o with
  | none => d
  | some v => if v = 0 then d else v

/-- JavaScript `x || d` for an optional string field (`undefined` and the
empty string fall back to the default). -/
def jsOrStr (o : Option String) (d : String) : String :=
  match o with
  | none => d
  | some s => if s = "" then d else s

end JsStr

open JsStr

namespace TextAnalyzer

/-- `this.maxChunkSize` from the `TextAnalyzer` constructor. -/
def maxChunkSize : Nat := 1000

/-- One raw issue object as decoded from the provider's JSON payload.
Absent fields are `none`.  (The JSON-decoding layer itself —
`response.match(/\{[\s\S]*\}/)` plus `JSON.parse` — belongs to the JS
runtime; the model starts from the decoded `issues` array.) -/
structure RawIssue where
  type : Option String := none
  severity : Option String := none
  startIndex : Option Int := none
  endIndex : Option Int := none
  message : Option String := none
  suggestions : Option (List String) := none
deriving DecidableEq

/-- A normalized issue as produced by `parseAnalysisResponse` /
`combineChunkResults`.  The random `id` string from `generateIssueId`
(time- and `Math.random`-based) carries no information used anywhere and is
not modelled. -/
structure Issue where
  type : String
  severity : String
  startIndex : Int
  endIndex : Int
  message : String
  suggestions : List String
  originalText : List Char
  chunkIndex : Nat
deriving DecidableEq

/-- Result of analysing one chunk (`parseAnalysisResponse`'s return value). -/
structure ChunkResult where
  issues : List Issue
  chunkIndex : Nat
  chunkText : List Char
  parseError : Bool := false
deriving DecidableEq

/-- `TextAnalyzer.parseAnalysisResponse`: the provider's decoded payload is
`none` when the response was not parseable JSON (the `catch` branch). -/
def parseAnalysisResponse (response : Option (List RawIssue))
    (originalChunk : List Char) (chunkIndex : Nat) : ChunkResult :=
  match response with
  | none =>
      { issues := [], chunkIndex, chunkText := originalChunk, parseError := true }
  | some raws =>
      { issues := raws.map (fun issue =>
          { type := jsOrStr issue.type "grammar"
            severity := jsOrStr issue.severity "warning"
            startIndex := max 0 (jsOrInt issue.startIndex 0)
            endIndex := min (originalChunk.length : Int) (jsOrInt issue.endIndex 0)
            message := jsOrStr issue.message "Issue detected"
            suggestions := issue.suggestions.getD []
            -- `originalChunk.substring(issue.startIndex, issue.endIndex)` uses
            -- the *raw* field values: an undefined end index means "to the end".
            originalText := jsSubstring originalChunk (issue.startIndex.getD 0)
              (match issue.endIndex with
               | none => (originalChunk.length : Int)
               | some v => v)
            chunkIndex })
        chunkIndex
        chunkText := originalChunk }

/-- End index chosen for the chunk starting at `cur` (body of the `while`
loop of `chunkText`): slice at `cur + maxChunkSize`, but back up to just
after the last sentence-terminal punctuation when that lies strictly past
70% of the intended chunk (`1000 * 0.7` is exactly `700` in IEEE doubles). -/
def chunkBest (text : List Char) (cur : Nat) : Int :=
  max (jsLastIndexOf text '.' (cur + maxChunkSize))
    (max (jsLastIndexOf text '?' (cur + maxChunkSize))
      (jsLastIndexOf text '!' (cur + maxChunkSize)))

def chunkEnd (text : List Char) (cur : Nat) : Nat :=
  if cur + maxChunkSize < text.length then
    if chunkBest text cur > (cur : Int) + 700 then (chunkBest text cur + 1).toNat
    else cur + maxChunkSize
  else cur + maxChunkSize

theorem chunkEnd_gt (text : List Char) (cur : Nat) : cur < chunkEnd text cur := by
  unfold chunkEnd maxChunkSize
  split
  · split
    · next h => omega
    · omega
  · omega

/-- The `while (currentIndex < text.length)` loop of `chunkText`. -/
def chunkLoop (text : List Char) (cur : Nat) : List (List Char) :=
  if _h : cur < text.length then
    sliceNat text cur (chunkEnd text cur) :: chunkLoop text (chunkEnd text cur)
  else []
termination_by text.length - cur
decreasing_by
  have := chunkEnd_gt text cur
  omega

/-- `TextAnalyzer.chunkText`. -/
def chunkText (text : List Char) : List (List Char) :=
  if text.length ≤ maxChunkSize then [text] else chunkLoop text 0

/-- Suggestion summary entry built by `generateSuggestions`. -/
structure SummarySuggestion where
  type : String
  message : String
  count : Nat
  issueType : String
deriving DecidableEq

/-- First-appearance order of issue types (JS object keys from the
`reduce` accumulator preserve insertion order for these string keys). -/
def distinctTypes (issues : List Issue) : List String :=
  issues.foldl (fun acc i => if acc.contains i.type then acc else acc ++ [i.type]) []

/-- `TextAnalyzer.generateSuggestions`. -/
def generateSuggestions (issues : List Issue) : List SummarySuggestion :=
  (distinctTypes issues).map (fun t =>
    let c := (issues.filter (fun i => i.type == t)).length
    let plural := if 1 < c then "s" else ""
    { type := "summary"
      message := s!"Found {c} {t} issue{plural}"
      count := c
      issueType := t })

/-- Metadata of a combined analysis result. -/
structure Metadata where
  textLength : Nat
  chunks : Nat
  totalIssues : Nat
deriving DecidableEq

/-- `TextAnalyzer`'s combined analysis result (`analysisTimestamp` is
`Date.now()` noise and not modelled). -/
structure AnalysisResult where
  issues : List Issue
  suggestions : List SummarySuggestion
  metadata : Metadata
deriving DecidableEq

/-- Fold step of `combineChunkResults`: rebase one chunk's issues by the
running character offset, then advance the offset by the chunk's length. -/
def combineStep (originalText : List Char) (acc : List Issue × Nat)
    (cr : ChunkResult) : List Issue × Nat :=
  let adjusted := cr.issues.map (fun issue =>
    { issue with
      startIndex := issue.startIndex + (acc.2 : Int)
      endIndex := issue.endIndex + (acc.2 : Int)
      originalText := jsSubstring originalText (issue.startIndex + (acc.2 : Int))
        (issue.endIndex + (acc.2 : Int)) })
  (acc.1 ++ adjusted, acc.2 + cr.chunkText.length)

/-- `TextAnalyzer.combineChunkResults`. -/
def combineChunkResults (chunkResults : List ChunkResult)
    (originalText : List Char) : AnalysisResult :=
  let allIssues := (chunkResults.foldl (combineStep originalText) ([], 0)).1
  { issues := allIssues
    suggestions := generateSuggestions allIssues
    metadata :=
      { textLength := originalText.length
        chunks := chunkResults.length
        totalIssues := allIssues.length } }

/-- `TextAnalyzer.analyzeText` on a fresh analyzer (its in-memory `Map`
cache is empty, so the cache lookup misses).  `responses` supplies the
decoded provider payload for each chunk in order. -/
def analyzeText (text : List Char) (responses : List (Option (List RawIssue))) :
    AnalysisResult :=
  if text = [] ∨ jsTrim text = [] then
    { issues := [], suggestions := [], metadata := { textLength := 0, chunks := 0, totalIssues := 0 } }
  else
    let chunks := chunkText text
    let chunkResults := chunks.enum.map
      (fun p => parseAnalysisResponse ((responses.getD p.1 none)) p.2 p.1)
    combineChunkResults chunkResults text

end TextAnalyzer

namespace TextAnalyzer

theorem sliceNat_append_drop (s : List Char) (lo hi : Nat) (h1 : lo ≤ hi)
    (h2 : lo ≤ s.length) :
    sliceNat s lo hi ++ s.drop hi = s.drop lo := by
  unfold sliceNat
  conv_rhs => rw [← List.take_append_drop hi s]
  rw [List.drop_append_eq_append_drop]
  have hz : lo - (s.take hi).length = 0 := by
    simp only [List.length_take]
    omega
  rw [hz, List.drop_zero]

theorem chunkLoop_flatten (text : List Char) (cur : Nat) :
    (chunkLoop text cur).flatten = text.drop cur := by
  rw [chunkLoop]
  split
  · next h =>
      rw [List.flatten_cons, chunkLoop_flatten text (chunkEnd text cur)]
      exact sliceNat_append_drop text cur (chunkEnd text cur)
        (Nat.le_of_lt (chunkEnd_gt text cur)) (Nat.le_of_lt h)
  · next h =>
      rw [List.flatten_nil, List.drop_eq_nil_of_le (by omega)]
termination_by text.length - cur
decreasing_by
  have := chunkEnd_gt text cur
  omega

/-- The chunks produced by `chunkText` concatenate back to the input text. -/
theorem chunkText_flatten (text : List Char) : (chunkText text).flatten = text := by
  unfold chunkText
  split
  · simp
  · simpa using chunkLoop_flatten text 0

theorem parseAnalysisResponse_chunkText (r : Option (List RawIssue))
    (chunk : List Char) (ci : Nat) :
    (parseAnalysisResponse r chunk ci).chunkText = chunk := by
  cases r <;> rfl

/-- Every issue normalized by `parseAnalysisResponse` has a non-negative
start index and an end index bounded above by the chunk length. -/
theorem parseAnalysisResponse_bounds (r : Option (List RawIssue))
    (chunk : List Char) (ci : Nat) :
    ∀ i ∈ (parseAnalysisResponse r chunk ci).issues,
      0 ≤ i.startIndex ∧ i.endIndex ≤ (chunk.length : Int) := by
  cases r with
  | none => intro i hi; simp [parseAnalysisResponse] at hi
  | some raws =>
      intro i hi
      simp only [parseAnalysisResponse, List.mem_map] at hi
      obtain ⟨raw, _, rfl⟩ := hi
      exact ⟨le_max_left 0 _, min_le_left _ _⟩


/-- Property of a rebased issue that survives `combineChunkResults`. -/
def RebasedOk (originalText : List Char) (i : Issue) : Prop :=
  0 ≤ i.startIndex ∧ i.endIndex ≤ (originalText.length : Int) ∧
    jsSubstring originalText i.startIndex i.endIndex = i.originalText

/-- Total character count covered by a list of chunk results. -/
def sumLens (rs : List ChunkResult) : Nat :=
  (rs.map (fun cr => cr.chunkText.length)).sum

theorem combineStep_fold_mem (originalText : List Char) (rs : List ChunkResult) :
    ∀ acc : List Issue × Nat,
      (∀ i ∈ acc.1, RebasedOk originalText i) →
      acc.2 + sumLens rs ≤ originalText.length →
      (∀ cr ∈ rs, ∀ i ∈ cr.issues,
        0 ≤ i.startIndex ∧ i.endIndex ≤ (cr.chunkText.length : Int)) →
      ∀ i ∈ (rs.foldl (combineStep originalText) acc).1, RebasedOk originalText i := by
  induction rs with
  | nil => intro acc hacc _ _ i hi; exact hacc i hi
  | cons cr rs ih =>
      intro acc hacc hlen hcrs i hi
      rw [List.foldl_cons] at hi
      rw [show sumLens (cr :: rs) = cr.chunkText.length + sumLens rs from by
        simp [sumLens]] at hlen
      refine ih (combineStep originalText acc cr) ?_ ?_ ?_ i hi
      · intro j hj
        simp only [combineStep, List.mem_append] at hj
        rcases hj with hj | hj
        · exact hacc j hj
        · rw [List.mem_map] at hj
          obtain ⟨src, hsrc, rfl⟩ := hj
          obtain ⟨hs0, hse⟩ := hcrs cr (List.mem_cons_self cr rs) src hsrc
          unfold RebasedOk
          refine ⟨?_, ?_, rfl⟩
          · show (0 : Int) ≤ src.startIndex + (acc.2 : Int)
            omega
          · show src.endIndex + (acc.2 : Int) ≤ (originalText.length : Int)
            omega
      · simp only [combineStep]
        omega
      · intro cr2 hcr2
        exact hcrs cr2 (List.mem_cons_of_mem cr hcr2)

/-- C1 (amended core): every issue in the combined result of `analyzeText`
has `0 ≤ startIndex`, `endIndex ≤ L`, and an `originalText` field equal to
`text.substring(startIndex, endIndex)` under JavaScript substring
semantics. -/
theorem analyzeText_rebased_issue_bounds (text : List Char)
    (responses : List (Option (List RawIssue))) :
    ∀ i ∈ (analyzeText text responses).issues, RebasedOk text i := by
  unfold analyzeText
  split
  · intro i hi; simp at hi
  · intro i hi
    simp only [combineChunkResults] at hi
    refine combineStep_fold_mem text _ ([], 0) (by intro j hj; simp at hj) ?_ ?_ i hi
    · have hmap : sumLens ((chunkText text).enum.map
          (fun p => parseAnalysisResponse (responses.getD p.1 none) p.2 p.1)) =
          ((chunkText text).map (fun c => c.length)).sum := by
        unfold sumLens
        rw [List.map_map]
        have hcongr : ((chunkText text).enum.map
            (fun p => ((fun cr => cr.chunkText.length) ∘
              (fun p : Nat × List Char =>
                parseAnalysisResponse (responses.getD p.1 none) p.2 p.1)) p)) =
            (chunkText text).enum.map (fun p => p.2.length) := by
          apply List.map_congr_left
          intro p _
          simp [Function.comp, parseAnalysisResponse_chunkText]
        rw [hcongr]
        rw [show (fun p : Nat × List Char => p.2.length) =
          ((fun c : List Char => c.length) ∘ Prod.snd) from rfl]
        rw [← List.map_map, List.enum_map_snd]
      rw [hmap]
      have hlen : ((chunkText text).map (fun c => c.length)).sum = text.length := by
        rw [← List.length_flatten, chunkText_flatten]
      omega
    · intro cr hcr
      rw [List.mem_map] at hcr
      obtain ⟨p, hp, rfl⟩ := hcr
      intro j hj
      have hb := parseAnalysisResponse_bounds (responses.getD p.1 none) p.2 p.1 j hj
      simpa only [parseAnalysisResponse_chunkText] using hb

end TextAnalyzer

def c1Text : List Char := ['a', 'b']

def c1BadResponses : List (Option (List TextAnalyzer.RawIssue)) := [some [{}]]

/-- C1 (counterexample): for the two-character text "ab" and a provider
issue object with no `startIndex`/`endIndex` fields, `analyzeText` returns
an issue whose rebased offsets are `[0, 0)` — violating
`startIndex < endIndex` from the claim. -/
theorem c1_chunk_rebasing_counterexample :
    ¬ (∀ i ∈ (TextAnalyzer.analyzeText c1Text c1BadResponses).issues,
        0 ≤ i.startIndex ∧ i.startIndex < i.endIndex ∧
        i.endIndex ≤ (c1Text.length : Int) ∧
        jsSubstring c1Text i.startIndex i.endIndex = i.originalText) := by
  decide

/-- C1 (corrected): every issue in the combined result of
`TextAnalyzer.analyzeText` on a text of length `L` has a non-negative
rebased `startIndex`, a rebased `endIndex ≤ L`, and an `originalText`
field equal to `text.substring(startIndex, endIndex)` under JavaScript
substring semantics.  (The stronger `startIndex < endIndex` of the original
claim fails: only `endIndex` is clamped from above and only `startIndex`
from below, so a malformed provider payload can produce an empty or
inverted span.) -/
theorem c1_chunk_rebasing (text : List Char)
    (responses : List (Option (List TextAnalyzer.RawIssue))) :
    ∀ i ∈ (TextAnalyzer.analyzeText text responses).issues,
      0 ≤ i.startIndex ∧ i.endIndex ≤ (text.length : Int) ∧
      jsSubstring text i.startIndex i.endIndex = i.originalText :=
  fun i hi => TextAnalyzer.analyzeText_rebased_issue_bounds text responses i hi

def c1GoodResponses : List (Option (List TextAnalyzer.RawIssue)) :=
  [some [{ startIndex := some 1, endIndex := some 2 }]]

def c1Issue : TextAnalyzer.Issue :=
  { type := "grammar", severity := "warning", startIndex := 1, endIndex := 2
    message := "Issue detected", suggestions := [], originalText := ['b']
    chunkIndex := 0 }

/-- C1 (witness): the corrected theorem applied at a concrete input. -/
theorem c1_chunk_rebasing_witness :
    c1Issue ∈ (TextAnalyzer.analyzeText c1Text c1GoodResponses).issues ∧
    (0 ≤ c1Issue.startIndex ∧ c1Issue.endIndex ≤ (c1Text.length : Int) ∧
      jsSubstring c1Text c1Issue.startIndex c1Issue.endIndex = c1Issue.originalText) :=
  ⟨by decide, c1_chunk_rebasing c1Text c1GoodResponses c1Issue (by decide)⟩

namespace IssueDetector

/-- The `suggestions` field of a raw issue as it may arrive from JSON:
absent, a bare string, or an array whose elements may fail the
`typeof s === 'string'` check (`none` models a non-string element). -/
inductive RawSuggestions
  | absent
  | ofString (s : String)
  | ofList (l : List (Option String))
deriving DecidableEq

/-- A raw issue object handed to `validateAndNormalizeIssue`.  Absent
fields are `none`.  Index fields hold the `parseInt` result of the raw
value; a non-numeric raw value (`parseInt` = `NaN`) behaves like `0` under
the `|| 0` fallback and is folded into `some 0`. -/
structure RawIssue where
  type : Option String := none
  severity : Option String := none
  startIndex : Option Int := none
  endIndex : Option Int := none
  message : Option String := none
  suggestions : RawSuggestions := .absent
deriving DecidableEq

/-- A validated issue from `IssueDetector` (the random `id` and the
`analysisTimestamp` carry no information and are not modelled). -/
structure Issue where
  type : String
  severity : String
  startIndex : Int
  endIndex : Int
  message : String
  suggestions : List String
  originalText : List Char
  confidence : ℚ
  chunkIndex : Nat
deriving DecidableEq

/-- ASCII lowercasing (JS `toLowerCase` on the identifiers used here). -/
def jsToLowerList (l : List Char) : List Char :=
  l.map Char.toLower

/-- JS `String.prototype.includes` (substring containment). -/
def includes (s sub : List Char) : Bool :=
  decide (sub <:+: s)

/-- The `typeMap` object literal of `normalizeIssueType`, in key insertion
order (the order `Object.entries` iterates for these string keys). -/
def typeMap : List (String × String) :=
  [("grammar", "grammar"), ("grammatical", "grammar"),
   ("spelling", "spelling"), ("spell", "spelling"),
   ("style", "style"),
   ("clarity", "clarity"), ("clear", "clarity"),
   ("punctuation", "punctuation"),
   ("word", "word_choice"),
   ("sentence", "sentence_structure")]

/-- `IssueDetector.normalizeIssueType`. -/
def normalizeIssueType (type : Option String) : String :=
  match type with
  | none => "style"
  | some t =>
      if t = "" then "style"
      else
        let lower := jsToLowerList t.data
        match typeMap.find? (fun kv => includes lower kv.1.data) with
        | some kv => kv.2
        | none => "style"

/-- `IssueDetector.normalizeSeverity`. -/
def normalizeSeverity (severity : Option String) : String :=
  match severity with
  | none => "warning"
  | some s =>
      if s = "" then "warning"
      else
        let lower := jsToLowerList s.data
        if includes lower "error".data || includes lower "critical".data then "error"
        else if includes lower "warning".data || includes lower "caution".data then "warning"
        else if includes lower "suggestion".data || includes lower "optional".data then
          "suggestion"
        else "warning"

/-- Case-insensitive "starts with" used to model the anchored
`/^(Issue:|Error:|Warning:|Suggestion:)\s*/i` replacement. -/
def startsWithCI (h l : List Char) : Bool :=
  (l.take h.length).map Char.toLower == h.map Char.toLower

/-- Strip one leading `Issue:`/`Error:`/`Warning:`/`Suggestion:` label
(case-insensitively) together with the whitespace that follows it. -/
def stripMsgHead (l : List Char) : List Char :=
  match (["issue:", "error:", "warning:", "suggestion:"].map String.data).find?
      (fun h => startsWithCI h l) with
  | some h => (l.drop h.length).dropWhile isWs
  | none => l

/-- Does the string end in `.`, `!` or `?` (the `/[.!?]$/` test)? -/
def endsWithTerminal (l : List Char) : Bool :=
  match l.getLast? with
  | some c => c == '.' || c == '!' || c == '?'
  | none => false

/-- `IssueDetector.normalizeMessage`.  Note the early return: an absent or
empty message yields the default `'Issue detected'` *without* entering the
punctuation-normalization step. -/
def normalizeMessage (message : Option String) : String :=
  match message with
  | none => "Issue detected"
  | some m =>
      if m = "" then "Issue detected"
      else
        let normalized := stripMsgHead (jsTrim m.data)
        if endsWithTerminal normalized then ⟨normalized⟩
        else ⟨normalized ++ ['.']⟩

/-- `IssueDetector.normalizeSuggestions`. -/
def normalizeSuggestions : RawSuggestions → List String
  | .absent => []
  | .ofString s => if s = "" then [] else [s]
  | .ofList l =>
      (((l.filterMap id).filter (fun s => s ≠ "")).map
        (fun s => (⟨jsTrim s.data⟩ : String))).filter (fun s => s ≠ "")

/-- The `rawIssue.suggestions && rawIssue.suggestions.length > 0` test of
`calculateConfidence` (for a bare string, `.length` is its character
count; an empty string is already falsy). -/
def suggestionsNonempty : RawSuggestions → Bool
  | .absent => false
  | .ofString s => s.length > 0
  | .ofList l => l.length > 0

/-- `IssueDetector.calculateConfidence` (exact rational arithmetic; the
JS doubles involved — multiples of 0.1 — never reach a rounding-sensitive
comparison: the final value is only clamped into `[0,1]`). -/
def calculateConfidence (raw : RawIssue) (actualText : List Char) : ℚ :=
  let base : ℚ := mkRat 1 2
  let c1 := if suggestionsNonempty raw.suggestions then qadd base (mkRat 1 5) else base
  let c2 := if (match raw.message with
                | some m => decide (m ≠ "") && decide (20 < m.length)
                | none => false) then qadd c1 (mkRat 1 10) else c1
  let c3 := if raw.startIndex.isSome && raw.endIndex.isSome then qadd c2 (mkRat 1 10) else c2
  let c4 := if actualText.length < 2 then qsub c3 (mkRat 1 5) else c3
  qmax 0 (qmin 1 c4)

/-- `IssueDetector.validateAndNormalizeIssue`; `none` input models a raw
array element that fails the `typeof rawIssue === 'object'` check. -/
def validateAndNormalizeIssue (raw : Option RawIssue) (originalText : List Char)
    (chunkIndex : Nat) : Option Issue :=
  match raw with
  | none => none
  | some r =>
      let s0 := jsOrInt r.startIndex 0
      let e0 := jsOrInt r.endIndex (s0 + 1)
      let s := max 0 (min s0 ((originalText.length : Int) - 1))
      let e := max (s + 1) (min e0 (originalText.length : Int))
      let actual := jsSubstring originalText s e
      some
        { type := normalizeIssueType r.type
          severity := normalizeSeverity r.severity
          startIndex := s
          endIndex := e
          message := normalizeMessage r.message
          suggestions := normalizeSuggestions r.suggestions
          originalText := actual
          confidence := calculateConfidence r actual
          chunkIndex }

/-- Loop of `deduplicateIssues`; the `seen` set holds the
`(startIndex, endIndex, type)` triples (the string key
`` `${s}-${e}-${type}` `` is injective on these triples). -/
def dedupLoop : List Issue → List (Int × Int × String) → List Issue
  | [], _ => []
  | i :: rest, seen =>
      let key := (i.startIndex, i.endIndex, i.type)
      if seen.contains key then dedupLoop rest seen
      else i :: dedupLoop rest (key :: seen)

/-- `IssueDetector.deduplicateIssues`. -/
def deduplicateIssues (issues : List Issue) : List Issue :=
  dedupLoop issues []

/-- `IssueDetector.processIssues`: validate each raw issue, keep the valid
ones, deduplicate.  Both parse paths of `parseIssues` (structured JSON and
the line-heuristic fallback) feed their raw issues through this function,
and `parseIssues` returns its result unchanged (or `[]` from the outer
`catch`). -/
def processIssues (rawIssues : List (Option RawIssue)) (originalText : List Char)
    (chunkIndex : Nat) : List Issue :=
  deduplicateIssues
    (rawIssues.filterMap (fun r => validateAndNormalizeIssue r originalText chunkIndex))

theorem dedupLoop_subset (l : List Issue) :
    ∀ seen i, i ∈ dedupLoop l seen → i ∈ l := by
  induction l with
  | nil => intro seen i hi; simp [dedupLoop] at hi
  | cons a rest ih =>
      intro seen i hi
      rw [dedupLoop] at hi
      by_cases hk : seen.contains (a.startIndex, a.endIndex, a.type)
      · rw [if_pos hk] at hi
        exact List.mem_cons_of_mem a (ih seen i hi)
      · rw [if_neg hk] at hi
        rcases List.mem_cons.mp hi with h | h
        · exact h ▸ List.mem_cons_self a rest
        · exact List.mem_cons_of_mem a (ih _ i h)

theorem normalizeMessage_default_or_terminal (o : Option String) :
    normalizeMessage o = "Issue detected" ∨
      endsWithTerminal (normalizeMessage o).data = true := by
  match o with
  | none => exact Or.inl rfl
  | some m =>
      by_cases hm : m = ""
      · left; simp [normalizeMessage, hm]
      · right
        simp only [normalizeMessage, if_neg hm]
        by_cases ht : endsWithTerminal (stripMsgHead (jsTrim m.data)) = true
        · rw [if_pos ht]
          exact ht
        · rw [if_neg ht]
          show endsWithTerminal (stripMsgHead (jsTrim m.data) ++ ['.']) = true
          unfold endsWithTerminal
          rw [List.getLast?_concat]
          rfl

end IssueDetector

def c9Text : List Char := ['h', 'i']

def c9RawNoMessage : List (Option IssueDetector.RawIssue) := [some {}]

/-- C9 (counterexample): a raw issue with no `message` field yields the
default message `'Issue detected'` — without a trailing period, because
`normalizeMessage` returns the default before the punctuation
normalization step — so not every issue's message ends in terminal
punctuation. -/
theorem c9_message_punctuation_counterexample :
    ¬ (∀ i ∈ IssueDetector.processIssues c9RawNoMessage c9Text 0,
        IssueDetector.endsWithTerminal i.message.data = true) := by
  decide

/-- C9 (corrected): every issue produced by `IssueDetector.processIssues`
(the common path of both branches of `parseIssues`) either carries the
default message `'Issue detected'` (raw message absent or empty; note: no
trailing period) or a message ending in `.`, `!` or `?`. -/
theorem c9_message_normalization (rawIssues : List (Option IssueDetector.RawIssue))
    (text : List Char) (ci : Nat) :
    ∀ i ∈ IssueDetector.processIssues rawIssues text ci,
      i.message = "Issue detected" ∨
        IssueDetector.endsWithTerminal i.message.data = true := by
  intro i hi
  have hmem := IssueDetector.dedupLoop_subset _ _ i hi
  rw [List.mem_filterMap] at hmem
  obtain ⟨r, _, hr⟩ := hmem
  match r with
  | none => simp [IssueDetector.validateAndNormalizeIssue] at hr
  | some raw =>
      simp only [IssueDetector.validateAndNormalizeIssue, Option.some.injEq] at hr
      have hmsg : i.message = IssueDetector.normalizeMessage raw.message := by
        rw [← hr]
      rw [hmsg]
      exact IssueDetector.normalizeMessage_default_or_terminal raw.message

def c9RawWithMessage : List (Option IssueDetector.RawIssue) :=
  [some { message := some "Fix this" }]

def c9Issue : IssueDetector.Issue :=
  { type := "style", severity := "warning", startIndex := 0, endIndex := 1
    message := "Fix this.", suggestions := [], originalText := ['h']
    confidence := mkRat 3 10, chunkIndex := 0 }

/-- C9 (witness): the corrected theorem applied at a concrete input. -/
theorem c9_message_normalization_witness :
    c9Issue ∈ IssueDetector.processIssues c9RawWithMessage c9Text 0 ∧
    (c9Issue.message = "Issue detected" ∨
      IssueDetector.endsWithTerminal c9Issue.message.data = true) :=
  ⟨by decide, c9_message_normalization c9RawWithMessage c9Text 0 c9Issue (by decide)⟩

namespace JsMap

/-- Lookup in a JS `Map` modelled as an association list with unique keys. -/
def get? {ν : Type} (m : List (String × ν)) (key : String) : Option ν :=
  match m.find? (fun p => p.1 == key) with
  | some p => some p.2
  | none => none

/-- JS `Map.has`. -/
def has {ν : Type} (m : List (String × ν)) (key : String) : Bool :=
  (m.find? (fun p => p.1 == key)).isSome

/-- JS `Map.set`: replaces the value in place if the key exists (keeping
its iteration position), otherwise appends. -/
def set {ν : Type} (m : List (String × ν)) (key : String) (v : ν) :
    List (String × ν) :=
  if has m key then m.map (fun p => if p.1 == key then (key, v) else p)
  else m ++ [(key, v)]

/-- JS `Map.delete`. -/
def del {ν : Type} (m : List (String × ν)) (key : String) : List (String × ν) :=
  m.filter (fun p => p.1 ≠ key)

end JsMap

namespace AnalysisCache

/-- One cache entry (`{data, timestamp, expires, size, accessCount}`). -/
structure Entry (α : Type) where
  data : α
  timestamp : Nat
  expires : Nat
  size : Nat
  accessCount : Nat
deriving DecidableEq

/-- Cache statistics. -/
structure Stats where
  hits : Nat := 0
  misses : Nat := 0
  evictions : Nat := 0
  invalidations : Nat := 0
  persistenceLoads : Nat := 0
  persistenceSaves : Nat := 0
deriving DecidableEq

/-- In-memory state of an `AnalysisCache`.  Persistence writes go to an
external store (`localStorage`) and do not change this state beyond the
`persistenceSaves` counter; write failures are caught by the source. -/
structure State (α : Type) where
  maxSize : Nat
  maxAge : Nat
  enablePersistence : Bool
  cache : List (String × Entry α)
  accessOrder : List (String × Nat)
  stats : Stats
deriving DecidableEq

/-- `options.maxSize || 100` style defaulting (`0` is falsy). -/
def jsOrNat (o : Option Nat) (d : Nat) : Nat :=
  match o with
  | none => d
  | some v => if v = 0 then d else v

/-- Fresh state as set up by the constructor before `loadFromPersistence`. -/
def mkState (α : Type) (maxSizeOpt maxAgeOpt : Option Nat)
    (enablePersistence : Bool) : State α :=
  { maxSize := jsOrNat maxSizeOpt 100
    maxAge := jsOrNat maxAgeOpt (30 * 60 * 1000)
    enablePersistence
    cache := []
    accessOrder := []
    stats := {} }

/-- The persisted snapshot (`{cache, stats, timestamp}`), with entries in
the insertion order `Object.entries` iterates. -/
structure PersistedData (α : Type) where
  cache : List (String × Entry α)
  stats : Stats
deriving DecidableEq

/-- `AnalysisCache.loadFromPersistence` on a decoded snapshot (`none`
models no stored value or a parse failure, both swallowed). -/
def loadFromPersistence {α : Type} (st : State α) (stored : Option (PersistedData α))
    (now : Nat) : State α :=
  match stored with
  | none => st
  | some data =>
      let st1 := data.cache.foldl
        (fun acc p =>
          if p.2.expires > now then
            { acc with
              cache := JsMap.set acc.cache p.1 p.2
              accessOrder := JsMap.set acc.accessOrder p.1 p.2.timestamp }
          else acc)
        st
      { st1 with
        stats := { data.stats with
                    persistenceLoads := data.stats.persistenceLoads + 1 } }

/-- Constructor: build the fresh state and, when persistence is enabled,
load the stored snapshot (no capacity check happens on this path). -/
def construct (α : Type) (maxSizeOpt maxAgeOpt : Option Nat)
    (enablePersistence : Bool) (stored : Option (PersistedData α)) (now : Nat) :
    State α :=
  let st := mkState α maxSizeOpt maxAgeOpt enablePersistence
  if enablePersistence then loadFromPersistence st stored now else st

/-- `AnalysisCache.isExpired`. -/
def isExpired {α : Type} (entry : Entry α) (now : Nat) : Bool :=
  now > entry.expires

/-- Bump `persistenceSaves` when a save is attempted (the write itself is
external). -/
def noteSave {α : Type} (st : State α) : State α :=
  if st.enablePersistence then
    { st with stats := { st.stats with persistenceSaves := st.stats.persistenceSaves + 1 } }
  else st

/-- `AnalysisCache.get`. -/
def get {α : Type} (st : State α) (key : String) (now : Nat) :
    Option α × State α :=
  match JsMap.get? st.cache key with
  | none =>
      (none, { st with stats := { st.stats with misses := st.stats.misses + 1 } })
  | some entry =>
      if isExpired entry now then
        (none,
          { st with
            cache := JsMap.del st.cache key
            accessOrder := JsMap.del st.accessOrder key
            stats := { st.stats with misses := st.stats.misses + 1 } })
      else
        (some entry.data,
          { st with
            accessOrder := JsMap.set st.accessOrder key now
            cache := JsMap.set st.cache key { entry with accessCount := entry.accessCount + 1 }
            stats := { st.stats with hits := st.stats.hits + 1 } })

/-- The scan of `evictLRU`: first entry with a strictly smaller access
time than everything before it (JS loop starting from `oldestTime =
Infinity`). -/
def scanOldest (l : List (String × Nat)) : Option (String × Nat) :=
  l.foldl
    (fun acc p =>
      match acc with
      | none => some p
      | some q => if p.2 < q.2 then some p else acc)
    none

/-- `AnalysisCache.evictLRU`.  Note `if (oldestKey)`: a `null` result
(empty access-order map) *and* an empty-string key both skip the
deletion. -/
def evictLRU {α : Type} (st : State α) : State α :=
  if st.cache.length = 0 then st
  else
    match scanOldest st.accessOrder with
    | none => st
    | some (oldestKey, _) =>
        if oldestKey = "" then st
        else
          { st with
            cache := JsMap.del st.cache oldestKey
            accessOrder := JsMap.del st.accessOrder oldestKey
            stats := { st.stats with evictions := st.stats.evictions + 1 } }

/-- `AnalysisCache.set`; `calcSize` stands for `this.calculateSize` (an
approximate serialized size, stored but never branched on). -/
def set {α : Type} (calcSize : α → Nat) (st : State α) (key : String) (data : α)
    (ttlOpt : Option Nat) (now : Nat) : State α :=
  let ttl := jsOrNat ttlOpt st.maxAge
  let entry : Entry α :=
    { data, timestamp := now, expires := now + ttl, size := calcSize data
      accessCount := 1 }
  let st1 :=
    if st.maxSize ≤ st.cache.length ∧ ¬ JsMap.has st.cache key then evictLRU st
    else st
  noteSave
    { st1 with
      cache := JsMap.set st1.cache key entry
      accessOrder := JsMap.set st1.accessOrder key now }

/-- `AnalysisCache.delete`. -/
def del {α : Type} (st : State α) (key : String) : State α :=
  let existed := JsMap.has st.cache key
  let st1 :=
    { st with
      cache := JsMap.del st.cache key
      accessOrder := JsMap.del st.accessOrder key }
  if existed then noteSave st1 else st1

/-- `AnalysisCache.clear` (persistence slot is removed externally). -/
def clear {α : Type} (st : State α) : State α :=
  { st with cache := [], accessOrder := [] }

end AnalysisCache

namespace AnalysisCache

/-- JS `ToInt32` wrap-around (the `hash = hash & hash` trick). -/
def toInt32 (n : Int) : Int :=
  (n + 2 ^ 31) % 2 ^ 32 - 2 ^ 31

/-- One step of the `((hash << 5) - hash) + char` loop; the shift itself is
a 32-bit operation. -/
def hashStep (h : Int) (c : Nat) : Int :=
  toInt32 (toInt32 (h * 32) - h + c)

def hashLoop (s : List Char) : Int :=
  s.foldl (fun h c => hashStep h c.toNat) 0

/-- Base-36 digit (`Number.prototype.toString(36)` uses `0-9a-z`). -/
def digit36 (d : Nat) : Char :=
  if d < 10 then Char.ofNat (48 + d) else Char.ofNat (87 + d)

def toBase36 (n : Nat) : List Char :=
  if _h : n < 36 then [digit36 n]
  else toBase36 (n / 36) ++ [digit36 (n % 36)]
termination_by n
decreasing_by
  have : 0 < n := by omega
  exact Nat.div_lt_self this (by omega)

/-- `AnalysisCache.hashText`: `Math.abs(hash).toString(36)`. -/
def hashText (text : List Char) : String :=
  if text.length = 0 then "0"
  else ⟨toBase36 (hashLoop text).natAbs⟩

/-- `AnalysisCache.generateKey`; `optionsStr` is the canonical JSON
serialization with sorted keys that `hashObject` stringifies (the JSON
layer belongs to the JS runtime). -/
def generateKey (text optionsStr : List Char) : String :=
  ⟨(hashText text).data ++ '_' :: (hashText optionsStr).data⟩

/-- `AnalysisCache.extractTextHashFromKey`: `key.split('_')[0]` (a split
always has at least one part). -/
def extractTextHashFromKey (key : String) : List Char :=
  (key.data.splitOn '_').headD []

/-- `AnalysisCache.calculateSimilarity`: positional character-match ratio
of the two hash strings (JS `hash1[i] === hash2[i]` is false when exactly
one side is out of range; both sides cannot be out of range for
`i < maxLength`). -/
def calculateSimilarity (hash1 hash2 : List Char) : ℚ :=
  if hash1 == hash2 then 1
  else
    let maxLength := max hash1.length hash2.length
    let matchCount := ((List.range maxLength).filter
      (fun i =>
        match hash1.get? i, hash2.get? i with
        | some a, some b => a == b
        | _, _ => false)).length
    mkRat matchCount maxLength

/-- `AnalysisCache.invalidateByText`: delete every cached entry whose
key's text-hash component is non-empty and similar to the hash of `text`
above the threshold (the float division/comparison is exact at these
small integer ratios). -/
def invalidateByText {α : Type} (st : State α) (text : List Char) (threshold : ℚ) :
    State α :=
  let textHash := (hashText text).data
  let keysToInvalidate := (st.cache.filter
    (fun p =>
      extractTextHashFromKey p.1 ≠ [] &&
        qlt threshold (calculateSimilarity textHash (extractTextHashFromKey p.1)))).map
    Prod.fst
  keysToInvalidate.foldl
    (fun acc k =>
      let acc1 := del acc k
      { acc1 with
        stats := { acc1.stats with invalidations := acc1.stats.invalidations + 1 } })
    st

end AnalysisCache

namespace JsMap

theorem length_set_of_has {ν : Type} (m : List (String × ν)) (key : String) (v : ν)
    (h : has m key = true) : (set m key v).length = m.length := by
  simp [set, h]

theorem length_set_of_not_has {ν : Type} (m : List (String × ν)) (key : String) (v : ν)
    (h : has m key = false) : (set m key v).length = m.length + 1 := by
  simp [set, h]

theorem length_del_le {ν : Type} (m : List (String × ν)) (key : String) :
    (del m key).length ≤ m.length :=
  List.length_filter_le _ m

theorem has_iff_mem_keys {ν : Type} (m : List (String × ν)) (key : String) :
    has m key = true ↔ key ∈ m.map Prod.fst := by
  unfold has
  rw [Option.isSome_iff_exists]
  constructor
  · rintro ⟨p, hp⟩
    have hmem := List.mem_of_find?_eq_some hp
    have hkey := List.find?_some hp
    rw [List.mem_map]
    exact ⟨p, hmem, by simpa using hkey⟩
  · intro hmem
    rw [List.mem_map] at hmem
    obtain ⟨p, hp, hkey⟩ := hmem
    have : (m.find? (fun q => q.1 == key)).isSome := by
      rw [List.find?_isSome]
      exact ⟨p, hp, by simp [hkey]⟩
    rw [Option.isSome_iff_exists] at this
    exact this

theorem length_del_lt_of_has {ν : Type} (m : List (String × ν)) (key : String)
    (h : has m key = true) : (del m key).length < m.length := by
  unfold del
  rw [List.length_filter_lt_length_iff_exists]
  rw [has_iff_mem_keys, List.mem_map] at h
  obtain ⟨p, hp, hkey⟩ := h
  exact ⟨p, hp, by simp [hkey]⟩

theorem has_del {ν : Type} (m : List (String × ν)) (k key : String)
    (h : has (del m k) key = true) : has m key = true := by
  rw [has_iff_mem_keys] at h ⊢
  rw [List.mem_map] at h ⊢
  obtain ⟨p, hp, hkey⟩ := h
  exact ⟨p, List.mem_of_mem_filter hp, hkey⟩

theorem get?_isSome_has {ν : Type} (m : List (String × ν)) (key : String) (v : ν)
    (h : get? m key = some v) : has m key = true := by
  unfold get? at h
  unfold has
  cases hf : m.find? (fun p => p.1 == key) with
  | none => rw [hf] at h; exact absurd h (by simp)
  | some p => rfl

end JsMap

namespace AnalysisCache

theorem scanFold_mem (l : List (String × Nat)) :
    ∀ acc q, l.foldl
      (fun acc p =>
        match acc with
        | none => some p
        | some q => if p.2 < q.2 then some p else acc) acc = some q →
      q ∈ l ∨ acc = some q := by
  induction l with
  | nil => intro acc q h; exact Or.inr h
  | cons p rest ih =>
      intro acc q h
      rw [List.foldl_cons] at h
      rcases ih _ q h with hmem | heq
      · exact Or.inl (List.mem_cons_of_mem p hmem)
      · match acc with
        | none =>
            simp only at heq
            obtain rfl := Option.some.inj heq
            exact Or.inl (List.mem_cons_self p rest)
        | some r =>
            simp only at heq
            by_cases hlt : p.2 < r.2
            · rw [if_pos hlt] at heq
              obtain rfl := Option.some.inj heq
              exact Or.inl (List.mem_cons_self p rest)
            · rw [if_neg hlt] at heq
              exact Or.inr heq

theorem scanOldest_mem (l : List (String × Nat)) (q : String × Nat)
    (h : scanOldest l = some q) : q ∈ l := by
  rcases scanFold_mem l none q h with hmem | heq
  · exact hmem
  · exact absurd heq (by simp)

/-- Internal well-formedness: the two maps hold the same keys in the same
order, and no key is the empty string (every key `generateKey` produces is
non-empty). -/
def WF {α : Type} (st : State α) : Prop :=
  st.cache.map Prod.fst = st.accessOrder.map Prod.fst ∧
    "" ∉ st.cache.map Prod.fst

/-- One externally invokable cache operation. -/
inductive CacheOp (α : Type) where
  | opGet (key : String) (now : Nat)
  | opSet (key : String) (data : α) (ttl : Option Nat) (now : Nat)
  | opDelete (key : String)
  | opClear
  | opInvalidate (text : List Char) (threshold : ℚ)

/-- Dispatch one cache operation. -/
def applyOp {α : Type} (calcSize : α → Nat) (st : State α) : CacheOp α → State α
  | .opGet key now => (get st key now).2
  | .opSet key data ttl now => set calcSize st key data ttl now
  | .opDelete key => del st key
  | .opClear => clear st
  | .opInvalidate text th => invalidateByText st text th

theorem del_cache_eq {α : Type} (st : State α) (key : String) :
    (del st key).cache = JsMap.del st.cache key := by
  unfold del noteSave
  dsimp only
  split
  · split <;> rfl
  · rfl

theorem noteSave_cache {α : Type} (st : State α) : (noteSave st).cache = st.cache := by
  unfold noteSave
  split <;> rfl

theorem invalidate_fold_le {α : Type} (l : List String) :
    ∀ st : State α,
      (l.foldl
        (fun acc k =>
          let acc1 := del acc k
          { acc1 with
            stats := { acc1.stats with invalidations := acc1.stats.invalidations + 1 } })
        st).cache.length ≤ st.cache.length := by
  induction l with
  | nil => intro st; exact Nat.le_refl _
  | cons k rest ih =>
      intro st
      rw [List.foldl_cons]
      refine Nat.le_trans (ih _) ?_
      show (del st k).cache.length ≤ st.cache.length
      rw [del_cache_eq]
      exact JsMap.length_del_le st.cache k

end AnalysisCache

namespace AnalysisCache

theorem scanFold_isSome (l : List (String × Nat)) :
    ∀ acc : Option (String × Nat), acc.isSome →
      (l.foldl
        (fun acc p =>
          match acc with
          | none => some p
          | some q => if p.2 < q.2 then some p else acc) acc).isSome := by
  induction l with
  | nil => intro acc h; exact h
  | cons p rest ih =>
      intro acc h
      rw [List.foldl_cons]
      match acc with
      | none => exact absurd h (by simp)
      | some q =>
          dsimp only
          split
          · exact ih _ (by simp)
          · exact ih _ (by simp)

theorem scanOldest_ne_none (l : List (String × Nat)) (h : l ≠ []) :
    (scanOldest l).isSome := by
  match l with
  | [] => exact absurd rfl h
  | p :: rest =>
      unfold scanOldest
      rw [List.foldl_cons]
      exact scanFold_isSome rest _ (by simp)

end AnalysisCache

def c7LoadedEntry : AnalysisCache.Entry Nat :=
  { data := 0, timestamp := 1, expires := 5, size := 0, accessCount := 1 }

def c7Snapshot : AnalysisCache.PersistedData Nat :=
  { cache := [("a1", c7LoadedEntry), ("b2", c7LoadedEntry)], stats := {} }

/-- C7 (counterexample): constructing an `AnalysisCache` with `maxSize = 1`
over a persisted snapshot holding two non-expired entries loads both —
`loadFromPersistence` enforces no capacity bound — so the entry count
exceeds `maxSize` right after construction. -/
theorem c7_max_size_counterexample :
    ¬ ((AnalysisCache.construct Nat (some 1) none true (some c7Snapshot) 0).cache.length ≤
        (AnalysisCache.construct Nat (some 1) none true (some c7Snapshot) 0).maxSize) := by
  decide

/-- C7 (corrected): every cache operation other than the persistence load —
`get`, `set`, `delete`, `clear`, `invalidateByText` — preserves the bound
`size ≤ maxSize`, given a well-formed state (key-synchronized internal
maps, no empty-string key) with `maxSize ≥ 1`.  Construction with a
persistence load can violate the bound, as the counterexample shows. -/
theorem c7_cache_bounded {α : Type} (calcSize : α → Nat) (st : AnalysisCache.State α)
    (op : AnalysisCache.CacheOp α) (hwf : AnalysisCache.WF st)
    (hmax : 1 ≤ st.maxSize) (hle : st.cache.length ≤ st.maxSize) :
    (AnalysisCache.applyOp calcSize st op).cache.length ≤ st.maxSize := by
  obtain ⟨hsync, hkeys⟩ := hwf
  cases op with
  | opGet key now =>
      show ((AnalysisCache.get st key now).2).cache.length ≤ st.maxSize
      unfold AnalysisCache.get
      cases hg : JsMap.get? st.cache key with
      | none => exact hle
      | some entry =>
          dsimp only
          split
          · exact le_trans (JsMap.length_del_le _ _) hle
          · have hhas := JsMap.get?_isSome_has st.cache key entry hg
            show (JsMap.set st.cache key _).length ≤ st.maxSize
            rw [JsMap.length_set_of_has _ _ _ hhas]
            exact hle
  | opSet key data ttl now =>
      show (AnalysisCache.set calcSize st key data ttl now).cache.length ≤ st.maxSize
      unfold AnalysisCache.set
      dsimp only
      rw [AnalysisCache.noteSave_cache]
      dsimp only
      by_cases hcond : st.maxSize ≤ st.cache.length ∧ ¬ JsMap.has st.cache key
      · rw [if_pos hcond]
        obtain ⟨hge, hnew⟩ := hcond
        have hlen0 : ¬ st.cache.length = 0 := by omega
        unfold AnalysisCache.evictLRU
        rw [if_neg hlen0]
        have hlens : st.cache.length = st.accessOrder.length := by
          have := congrArg List.length hsync
          simpa using this
        have hne : st.accessOrder ≠ [] := by
          intro hnil
          rw [hnil] at hlens
          simp only [List.length_nil] at hlens
          omega
        cases hscan : AnalysisCache.scanOldest st.accessOrder with
        | none =>
            exact absurd (AnalysisCache.scanOldest_ne_none st.accessOrder hne)
              (by simp [hscan])
        | some q =>
            obtain ⟨k, t⟩ := q
            dsimp only
            have hqmem := AnalysisCache.scanOldest_mem st.accessOrder (k, t) hscan
            have hkmem : k ∈ st.cache.map Prod.fst := by
              rw [hsync, List.mem_map]
              exact ⟨(k, t), hqmem, rfl⟩
            have hkne : ¬ k = "" := fun h => hkeys (h ▸ hkmem)
            rw [if_neg hkne]
            dsimp only
            have hdel_lt : (JsMap.del st.cache k).length < st.cache.length :=
              JsMap.length_del_lt_of_has st.cache k
                ((JsMap.has_iff_mem_keys st.cache k).mpr hkmem)
            have hnothas : JsMap.has (JsMap.del st.cache k) key = false := by
              cases hh : JsMap.has (JsMap.del st.cache k) key with
              | false => rfl
              | true => exact absurd (JsMap.has_del _ _ _ hh) hnew
            rw [JsMap.length_set_of_not_has _ _ _ hnothas]
            omega
      · rw [if_neg hcond]
        by_cases hhas : JsMap.has st.cache key = true
        · rw [JsMap.length_set_of_has _ _ _ hhas]
          exact hle
        · have hfalse : JsMap.has st.cache key = false := by
            cases hh : JsMap.has st.cache key with
            | false => rfl
            | true => exact absurd hh hhas
          have hlt : st.cache.length < st.maxSize := by
            by_contra hge
            exact hcond ⟨by omega, fun h => hhas h⟩
          rw [JsMap.length_set_of_not_has _ _ _ hfalse]
          omega
  | opDelete key =>
      show (AnalysisCache.del st key).cache.length ≤ st.maxSize
      rw [AnalysisCache.del_cache_eq]
      exact le_trans (JsMap.length_del_le _ _) hle
  | opClear =>
      show (AnalysisCache.clear st).cache.length ≤ st.maxSize
      simp [AnalysisCache.clear]
  | opInvalidate text th =>
      show (AnalysisCache.invalidateByText st text th).cache.length ≤ st.maxSize
      unfold AnalysisCache.invalidateByText
      exact le_trans (AnalysisCache.invalidate_fold_le _ st) hle

def c7State : AnalysisCache.State Nat :=
  AnalysisCache.mkState Nat none none false

/-- C7 (witness): the corrected theorem applied to a fresh cache and a
`set` operation. -/
theorem c7_cache_bounded_witness :
    (AnalysisCache.WF c7State ∧ 1 ≤ c7State.maxSize ∧
      c7State.cache.length ≤ c7State.maxSize) ∧
    (AnalysisCache.applyOp (fun _ => 0) c7State
        (.opSet "k" 5 none 0)).cache.length ≤ c7State.maxSize :=
  ⟨⟨⟨by decide, by decide⟩, by decide, by decide⟩,
    c7_cache_bounded (fun _ => 0) c7State (.opSet "k" 5 none 0)
      ⟨by decide, by decide⟩ (by decide) (by decide)⟩

namespace JsMap

theorem has_eq_false_iff {ν : Type} (m : List (String × ν)) (key : String) :
    has m key = false ↔ key ∉ m.map Prod.fst := by
  constructor
  · intro h hmem
    rw [← has_iff_mem_keys] at hmem
    rw [h] at hmem
    exact absurd hmem (by simp)
  · intro h
    cases hh : has m key with
    | false => rfl
    | true => exact absurd ((has_iff_mem_keys m key).mp hh) h

theorem get?_head {ν : Type} (k : String) (x : ν) (rest : List (String × ν)) :
    get? ((k, x) :: rest) k = some x := by
  unfold get?
  rw [List.find?_cons_of_pos _ (by simp)]

theorem set_head {ν : Type} (k : String) (x v : ν) (rest : List (String × ν))
    (hnot : k ∉ rest.map Prod.fst) :
    set ((k, x) :: rest) k v = (k, v) :: rest := by
  unfold set
  rw [if_pos (by
    unfold has
    rw [List.find?_cons_of_pos _ (by simp)]
    rfl)]
  rw [List.map_cons, if_pos (by simp)]
  congr 1
  have hcongr : rest.map (fun p => if p.1 == k then (k, v) else p) = rest.map id := by
    apply List.map_congr_left
    intro p hp
    have hne : p.1 ≠ k := by
      intro h
      exact hnot (List.mem_map.mpr ⟨p, hp, h⟩)
    simp [hne]
  rw [hcongr, List.map_id]

theorem set_append_new {ν : Type} (m : List (String × ν)) (k : String) (v : ν)
    (hnot : k ∉ m.map Prod.fst) :
    set m k v = m ++ [(k, v)] := by
  unfold set
  have hf : has m k = false := (has_eq_false_iff m k).mpr hnot
  rw [if_neg (by simp [hf])]

theorem del_cons_of_ne {ν : Type} (k' k : String) (x : ν) (m : List (String × ν))
    (h : k' ≠ k) : del ((k', x) :: m) k = (k', x) :: del m k := by
  unfold del
  rw [List.filter_cons_of_pos (by simpa using h)]

theorem del_cons_self {ν : Type} (k : String) (x : ν) (m : List (String × ν)) :
    del ((k, x) :: m) k = del m k := by
  unfold del
  rw [List.filter_cons_of_neg (by simp)]

theorem del_eq_self {ν : Type} (m : List (String × ν)) (k : String)
    (h : k ∉ m.map Prod.fst) : del m k = m := by
  unfold del
  rw [List.filter_eq_self]
  intro p hp
  have : p.1 ≠ k := by
    intro he
    exact h (List.mem_map.mpr ⟨p, hp, he⟩)
  simpa using this

end JsMap

namespace AnalysisCache

theorem noteSave_accessOrder {α : Type} (st : State α) :
    (noteSave st).accessOrder = st.accessOrder := by
  unfold noteSave; split <;> rfl

theorem noteSave_maxSize {α : Type} (st : State α) :
    (noteSave st).maxSize = st.maxSize := by
  unfold noteSave; split <;> rfl

theorem noteSave_maxAge {α : Type} (st : State α) :
    (noteSave st).maxAge = st.maxAge := by
  unfold noteSave; split <;> rfl

/-- The entry `set` builds when called with no explicit TTL. -/
def fillEntry {α : Type} (calcSize : α → Nat) (maxAge : Nat) (v : α) (t : Nat) :
    Entry α :=
  { data := v, timestamp := t, expires := t + maxAge, size := calcSize v
    accessCount := 1 }

/-- Fill the cache by a sequence of `set` calls (key, time) with a fixed
payload. -/
def fillCache {α : Type} (calcSize : α → Nat) (v : α) (ps : List (String × Nat))
    (st : State α) : State α :=
  ps.foldl (fun acc p => set calcSize acc p.1 v none p.2) st

theorem set_fresh {α : Type} (calcSize : α → Nat) (st : State α) (k : String)
    (v : α) (t : Nat)
    (hkc : k ∉ st.cache.map Prod.fst)
    (hka : k ∉ st.accessOrder.map Prod.fst)
    (hlt : st.cache.length < st.maxSize) :
    (set calcSize st k v none t).cache =
        st.cache ++ [(k, fillEntry calcSize st.maxAge v t)] ∧
      (set calcSize st k v none t).accessOrder = st.accessOrder ++ [(k, t)] ∧
      (set calcSize st k v none t).maxSize = st.maxSize ∧
      (set calcSize st k v none t).maxAge = st.maxAge := by
  unfold set
  dsimp only
  rw [if_neg (by rintro ⟨h1, _⟩; omega)]
  refine ⟨?_, ?_, ?_, ?_⟩
  · rw [noteSave_cache]
    show JsMap.set st.cache k _ = _
    rw [JsMap.set_append_new st.cache k _ hkc]
    rfl
  · rw [noteSave_accessOrder]
    show JsMap.set st.accessOrder k t = _
    rw [JsMap.set_append_new st.accessOrder k t hka]
  · rw [noteSave_maxSize]
  · rw [noteSave_maxAge]

theorem fillCache_spec {α : Type} (calcSize : α → Nat) (v : α) :
    ∀ (ps : List (String × Nat)) (st : State α),
      (ps.map Prod.fst).Nodup →
      (∀ p ∈ ps, p.1 ∉ st.cache.map Prod.fst) →
      (∀ p ∈ ps, p.1 ∉ st.accessOrder.map Prod.fst) →
      st.cache.length + ps.length ≤ st.maxSize →
      (fillCache calcSize v ps st).cache =
          st.cache ++ ps.map (fun p => (p.1, fillEntry calcSize st.maxAge v p.2)) ∧
        (fillCache calcSize v ps st).accessOrder = st.accessOrder ++ ps ∧
        (fillCache calcSize v ps st).maxSize = st.maxSize ∧
        (fillCache calcSize v ps st).maxAge = st.maxAge := by
  intro ps
  induction ps with
  | nil =>
      intro st _ _ _ _
      exact ⟨by simp [fillCache], by simp [fillCache], rfl, rfl⟩
  | cons p rest ih =>
      intro st hnd hc ha hlen
      have hpc := hc p (List.mem_cons_self p rest)
      have hpa := ha p (List.mem_cons_self p rest)
      have hlt : st.cache.length < st.maxSize := by
        simp only [List.length_cons] at hlen
        omega
      obtain ⟨hsc, hsa, hsm, hsg⟩ := set_fresh calcSize st p.1 v p.2 hpc hpa hlt
      have hstep : fillCache calcSize v (p :: rest) st =
          fillCache calcSize v rest (set calcSize st p.1 v none p.2) := by
        unfold fillCache
        rw [List.foldl_cons]
      have hndr : (rest.map Prod.fst).Nodup := by
        rw [List.map_cons] at hnd
        exact hnd.of_cons
      have hp1notin : p.1 ∉ rest.map Prod.fst := by
        rw [List.map_cons] at hnd
        exact (List.nodup_cons.mp hnd).1
      have hcr : ∀ q ∈ rest, q.1 ∉ (set calcSize st p.1 v none p.2).cache.map Prod.fst := by
        intro q hq
        rw [hsc, List.map_append]
        intro hmem
        rcases List.mem_append.mp hmem with h | h
        · exact hc q (List.mem_cons_of_mem p hq) h
        · simp only [List.map_cons, List.map_nil, List.mem_singleton] at h
          exact hp1notin (h ▸ List.mem_map.mpr ⟨q, hq, rfl⟩)
      have har : ∀ q ∈ rest, q.1 ∉ (set calcSize st p.1 v none p.2).accessOrder.map Prod.fst := by
        intro q hq
        rw [hsa, List.map_append]
        intro hmem
        rcases List.mem_append.mp hmem with h | h
        · exact ha q (List.mem_cons_of_mem p hq) h
        · simp only [List.map_cons, List.map_nil, List.mem_singleton] at h
          exact hp1notin (h ▸ List.mem_map.mpr ⟨q, hq, rfl⟩)
      have hlr : (set calcSize st p.1 v none p.2).cache.length + rest.length ≤
          (set calcSize st p.1 v none p.2).maxSize := by
        rw [hsc, hsm, List.length_append]
        simp only [List.length_cons] at hlen
        simp only [List.length_cons, List.length_nil]
        omega
      obtain ⟨ic, ia, im, ig⟩ := ih (set calcSize st p.1 v none p.2) hndr hcr har hlr
      rw [hstep]
      refine ⟨?_, ?_, ?_, ?_⟩
      · rw [ic, hsc, hsg, List.append_assoc]
        rfl
      · rw [ia, hsa, List.append_assoc]
        rfl
      · rw [im, hsm]
      · rw [ig, hsg]

theorem scanFold_const (l : List (String × Nat)) (q : String × Nat)
    (h : ∀ p ∈ l, ¬ p.2 < q.2) :
    l.foldl
      (fun acc p =>
        match acc with
        | none => some p
        | some r => if p.2 < r.2 then some p else acc) (some q) = some q := by
  induction l with
  | nil => rfl
  | cons p rest ih =>
      rw [List.foldl_cons]
      dsimp only
      rw [if_neg (h p (List.mem_cons_self p rest))]
      exact ih (fun r hr => h r (List.mem_cons_of_mem p hr))

theorem scanOldest_second (p1 q : String × Nat) (rest : List (String × Nat))
    (h1 : q.2 < p1.2) (h2 : ∀ p ∈ rest, ¬ p.2 < q.2) :
    scanOldest (p1 :: q :: rest) = some q := by
  unfold scanOldest
  rw [List.foldl_cons, List.foldl_cons]
  dsimp only
  rw [if_pos h1]
  exact scanFold_const rest q h2

/-- The LRU scenario: fill an empty cache of capacity `2 + ps.length` with
keys `(k1,t1), (k2,t2), ps…`, `get` the oldest-inserted key `k1` at `t4`,
then `set` a fresh key `kNew` at `t5`. -/
def lruScenario (α : Type) (calcSize : α → Nat) (v w : α) (k1 k2 kNew : String)
    (t1 t2 t4 t5 : Nat) (ps : List (String × Nat)) (maxAgeOpt : Option Nat) :
    State α :=
  let st0 := mkState α (some (2 + ps.length)) maxAgeOpt false
  let st1 := fillCache calcSize v ((k1, t1) :: (k2, t2) :: ps) st0
  let st2 := (get st1 k1 t4).2
  set calcSize st2 kNew w none t5

end AnalysisCache

/-- C4: LRU eviction is by last-access time, not insertion order.  Fill an
empty cache to capacity `2 + ps.length` with distinct keys at strictly
increasing times, `get` the oldest-inserted key `k1` (refreshing its access
time), then `set` a fresh key: the evicted entry is the second-oldest `k2`,
and `k1` — just accessed — survives. -/
theorem c4_lru_eviction {α : Type} (calcSize : α → Nat) (v w : α)
    (k1 k2 kNew : String) (t1 t2 t4 t5 : Nat) (ps : List (String × Nat))
    (maxAgeOpt : Option Nat)
    (hnd : (k1 :: k2 :: ps.map Prod.fst).Nodup)
    (hk2ne : k2 ≠ "")
    (hnew : kNew ∉ k1 :: k2 :: ps.map Prod.fst)
    (ht2 : t2 < t4)
    (hps : ∀ p ∈ ps, t2 < p.2)
    (hfresh : t4 ≤ t1 + AnalysisCache.jsOrNat maxAgeOpt (30 * 60 * 1000)) :
    (AnalysisCache.lruScenario α calcSize v w k1 k2 kNew t1 t2 t4 t5 ps
        maxAgeOpt).cache.map Prod.fst = k1 :: ps.map Prod.fst ++ [kNew] ∧
      JsMap.has (AnalysisCache.lruScenario α calcSize v w k1 k2 kNew t1 t2 t4 t5 ps
        maxAgeOpt).cache k2 = false ∧
      JsMap.has (AnalysisCache.lruScenario α calcSize v w k1 k2 kNew t1 t2 t4 t5 ps
        maxAgeOpt).cache k1 = true := by
  -- abbreviations
  have hk1k2 : k1 ≠ k2 := by
    have := (List.nodup_cons.mp hnd).1
    intro h
    exact this (h ▸ List.mem_cons_self k2 (ps.map Prod.fst))
  have hk1ps : k1 ∉ ps.map Prod.fst := by
    have := (List.nodup_cons.mp hnd).1
    intro h
    exact this (List.mem_cons_of_mem k2 h)
  have hk2ps : k2 ∉ ps.map Prod.fst :=
    (List.nodup_cons.mp ((List.nodup_cons.mp hnd).2)).1
  have hnew1 : kNew ≠ k1 := by
    intro h
    rw [h] at hnew
    exact hnew (List.mem_cons_self k1 _)
  have hnew2 : kNew ≠ k2 := by
    intro h
    rw [h] at hnew
    exact hnew (List.mem_cons_of_mem k1 (List.mem_cons_self k2 _))
  have hnewps : kNew ∉ ps.map Prod.fst := by
    intro h
    exact hnew (List.mem_cons_of_mem k1 (List.mem_cons_of_mem k2 h))
  set A := AnalysisCache.jsOrNat maxAgeOpt (30 * 60 * 1000) with hA
  set E := fun t => AnalysisCache.fillEntry calcSize A v t with hE
  set psE := ps.map (fun p => (p.1, E p.2)) with hpsE
  have psEkeys : psE.map Prod.fst = ps.map Prod.fst := by
    rw [hpsE, List.map_map]
    rfl
  set st0 := AnalysisCache.mkState α (some (2 + ps.length)) maxAgeOpt false with hst0
  have h0m : st0.maxSize = 2 + ps.length := by
    show AnalysisCache.jsOrNat (some (2 + ps.length)) 100 = 2 + ps.length
    unfold AnalysisCache.jsOrNat
    dsimp only
    rw [if_neg (by omega)]
  have h0g : st0.maxAge = A := rfl
  have h0c : st0.cache = [] := rfl
  have h0a : st0.accessOrder = [] := rfl
  set st1 := AnalysisCache.fillCache calcSize v ((k1, t1) :: (k2, t2) :: ps) st0 with hst1
  obtain ⟨h1c, h1a, h1m, h1g⟩ :=
    AnalysisCache.fillCache_spec calcSize v ((k1, t1) :: (k2, t2) :: ps) st0
      (by simpa using hnd)
      (by intro p _; rw [h0c]; simp)
      (by intro p _; rw [h0a]; simp)
      (by rw [h0m, h0c]; simp; omega)
  rw [h0c, h0g, List.nil_append, List.map_cons, List.map_cons] at h1c
  rw [h0a, List.nil_append] at h1a
  rw [h0m] at h1m
  -- the get step
  have hget? : JsMap.get? st1.cache k1 = some (E t1) := by
    rw [← hst1] at h1c
    rw [h1c]
    exact JsMap.get?_head k1 (E t1) _
  have hnexp : ¬ (AnalysisCache.isExpired (E t1) t4 = true) := by
    show ¬ (decide (t4 > t1 + A) = true)
    simp only [decide_eq_true_eq]
    omega
  set st2 := (AnalysisCache.get st1 k1 t4).2 with hst2
  have hst2eq : st2 =
      { st1 with
        accessOrder := JsMap.set st1.accessOrder k1 t4
        cache := JsMap.set st1.cache k1
          { E t1 with accessCount := (E t1).accessCount + 1 }
        stats := { st1.stats with hits := st1.stats.hits + 1 } } := by
    rw [hst2]
    unfold AnalysisCache.get
    rw [hget?]
    dsimp only
    rw [if_neg hnexp]
  have h2c : st2.cache =
      (k1, { E t1 with accessCount := (E t1).accessCount + 1 }) :: (k2, E t2) :: psE := by
    rw [hst2eq]
    show JsMap.set st1.cache k1 _ = _
    rw [← hst1] at h1c
    rw [h1c]
    rw [JsMap.set_head k1 (E t1) _ ((k2, E t2) :: psE)
      (by
        rw [List.map_cons, psEkeys]
        intro h
        rcases List.mem_cons.mp h with h | h
        · exact hk1k2 h
        · exact hk1ps h)]
  have h2a : st2.accessOrder = (k1, t4) :: (k2, t2) :: ps := by
    rw [hst2eq]
    show JsMap.set st1.accessOrder k1 t4 = _
    rw [← hst1] at h1a
    rw [h1a]
    rw [JsMap.set_head k1 t1 t4 ((k2, t2) :: ps)
      (by
        rw [List.map_cons]
        intro h
        rcases List.mem_cons.mp h with h | h
        · exact hk1k2 h
        · exact hk1ps h)]
  have h2m : st2.maxSize = 2 + ps.length := by
    rw [hst2eq]
    show st1.maxSize = _
    rw [← hst1] at h1m
    exact h1m
  have h2len : st2.cache.length = 2 + ps.length := by
    rw [h2c]
    simp [hpsE]
    omega
  -- the final set step
  have hcondT : st2.maxSize ≤ st2.cache.length ∧ ¬ JsMap.has st2.cache kNew := by
    constructor
    · omega
    · have : JsMap.has st2.cache kNew = false := by
        rw [JsMap.has_eq_false_iff, h2c, List.map_cons, List.map_cons, psEkeys]
        intro h
        rcases List.mem_cons.mp h with h | h
        · exact hnew1 h
        · rcases List.mem_cons.mp h with h | h
          · exact hnew2 h
          · exact hnewps h
      simp [this]
  have hev : (AnalysisCache.evictLRU st2).cache =
      (k1, { E t1 with accessCount := (E t1).accessCount + 1 }) :: psE := by
    unfold AnalysisCache.evictLRU
    rw [if_neg (by omega)]
    have hscan : AnalysisCache.scanOldest st2.accessOrder = some (k2, t2) := by
      rw [h2a]
      exact AnalysisCache.scanOldest_second (k1, t4) (k2, t2) ps ht2
        (fun p hp => by have := hps p hp; omega)
    rw [hscan]
    dsimp only
    rw [if_neg hk2ne]
    show JsMap.del st2.cache k2 = _
    rw [h2c]
    rw [JsMap.del_cons_of_ne k1 k2 _ _ hk1k2, JsMap.del_cons_self,
      JsMap.del_eq_self psE k2 (by rw [psEkeys]; exact hk2ps)]
  have h3keys : (AnalysisCache.set calcSize st2 kNew w none t5).cache.map Prod.fst =
      k1 :: ps.map Prod.fst ++ [kNew] := by
    unfold AnalysisCache.set
    dsimp only
    rw [AnalysisCache.noteSave_cache]
    dsimp only
    rw [if_pos hcondT]
    rw [JsMap.set_append_new _ kNew _
      (by
        rw [hev, List.map_cons, psEkeys]
        intro h
        rcases List.mem_cons.mp h with h | h
        · exact hnew1 h
        · exact hnewps h)]
    rw [hev]
    rw [List.map_append, List.map_cons, psEkeys]
    rfl
  refine ⟨h3keys, ?_, ?_⟩
  · rw [JsMap.has_eq_false_iff]
    show k2 ∉ (AnalysisCache.set calcSize st2 kNew w none t5).cache.map Prod.fst
    rw [h3keys]
    intro h
    rcases List.mem_append.mp h with h | h
    · rcases List.mem_cons.mp h with h | h
      · exact hk1k2 h.symm
      · exact hk2ps h
    · rw [List.mem_singleton] at h
      exact hnew2 h.symm
  · rw [JsMap.has_iff_mem_keys]
    show k1 ∈ (AnalysisCache.set calcSize st2 kNew w none t5).cache.map Prod.fst
    rw [h3keys]
    exact List.mem_cons_self k1 _

/-- C4 (witness): the LRU theorem applied at a concrete instance with
`maxSize = 3`, keys `a, b, c`, access of `a`, then insertion of `d`:
`b` is evicted. -/
theorem c4_lru_eviction_witness :
    (AnalysisCache.lruScenario Nat (fun _ : Nat => 0) 7 8 "a" "b" "d" 1 2 10 11
        [("c", 3)] none).cache.map Prod.fst = ["a", "c", "d"] ∧
      JsMap.has (AnalysisCache.lruScenario Nat (fun _ : Nat => 0) 7 8 "a" "b" "d" 1 2 10 11
        [("c", 3)] none).cache "b" = false ∧
      JsMap.has (AnalysisCache.lruScenario Nat (fun _ : Nat => 0) 7 8 "a" "b" "d" 1 2 10 11
        [("c", 3)] none).cache "a" = true :=
  c4_lru_eviction (fun _ : Nat => 0) 7 8 "a" "b" "d" 1 2 10 11 [("c", 3)] none
    (by decide) (by decide) (by decide) (by decide) (by decide) (by decide)

namespace AnalysisEngine

/-- The closure captured by one `analyzeRealTime` call's `setTimeout`
callback: the analysis id, text and options of that call.  The call's
returned promise is identified with the timer id (one fresh timer per
call). -/
structure TimerClosure (ω : Type) where
  analysisId : String
  text : String
  opts : ω
deriving DecidableEq

/-- State of the debounce subsystem (`this.activeAnalyses` plus the timer
queue of the JS event loop).  `activeAnalyses` maps an analysis id to the
pending timer id; the stored entry's `text`/`options`/`resolve`/`reject`
fields are never read by later calls and live in `timers`.  `executed`
logs every actual `this.analyze(text, options)` invocation; `settled`
logs every promise resolution/rejection as `(timer id, success?)`. -/
structure RTState (ω : Type) where
  activeAnalyses : List (String × Nat)
  timers : List (TimerClosure ω)
  cancelled : List Nat
  fired : List Nat
  executed : List (String × ω)
  settled : List (Nat × Bool)
deriving DecidableEq

def emptyRT (ω : Type) : RTState ω :=
  { activeAnalyses := [], timers := [], cancelled := [], fired := []
    executed := [], settled := [] }

/-- `AnalysisEngine.analyzeRealTime` with real-time analysis enabled and an
explicit `analysisId` (the modelled path): clear the pending timer for the
id, schedule a fresh timer holding this call's parameters, store it as the
id's pending entry. -/
def analyzeRealTime {ω : Type} (st : RTState ω) (analysisId : String)
    (text : String) (opts : ω) : RTState ω :=
  let st1 :=
    match JsMap.get? st.activeAnalyses analysisId with
    | some tid => { st with cancelled := tid :: st.cancelled }
    | none => st
  let tid := st1.timers.length
  { st1 with
    timers := st1.timers ++ [⟨analysisId, text, opts⟩]
    activeAnalyses := JsMap.set st1.activeAnalyses analysisId tid }

/-- The JS event loop fires timer `tid`: a cleared or already-fired timer
does nothing; otherwise the callback runs `analyze` with the captured
parameters, deletes the id's pending entry, and settles that call's
promise (resolving on success, rejecting on error, per the oracle
`analyzeOk`). -/
def fireTimer {ω : Type} (analyzeOk : String → ω → Bool) (st : RTState ω)
    (tid : Nat) : RTState ω :=
  if tid ∈ st.cancelled ∨ tid ∈ st.fired then st
  else
    match st.timers.get? tid with
    | none => st
    | some c =>
        { st with
          fired := tid :: st.fired
          executed := st.executed ++ [(c.text, c.opts)]
          activeAnalyses := JsMap.del st.activeAnalyses c.analysisId
          settled := st.settled ++ [(tid, analyzeOk c.text c.opts)] }

/-- A burst of `analyzeRealTime` calls sharing one analysis id, each
arriving before any timer fires. -/
def runCalls {ω : Type} (id : String) (calls : List (String × ω))
    (st : RTState ω) : RTState ω :=
  calls.foldl (fun st c => analyzeRealTime st id c.1 c.2) st

/-- Fire a sequence of timers. -/
def runFires {ω : Type} (analyzeOk : String → ω → Bool) (st : RTState ω)
    (tids : List Nat) : RTState ω :=
  tids.foldl (fireTimer analyzeOk) st

/-- State shape after a non-empty burst: `pre` holds all scheduled
closures, only the last timer is alive, all earlier ones cancelled. -/
def burstState {ω : Type} (id : String) (pre : List (TimerClosure ω)) : RTState ω :=
  { activeAnalyses := [(id, pre.length - 1)]
    timers := pre
    cancelled := (List.range (pre.length - 1)).reverse
    fired := []
    executed := []
    settled := [] }

theorem jsmap_set_singleton {ν : Type} (k : String) (a b : ν) :
    JsMap.set [(k, a)] k b = [(k, b)] :=
  JsMap.set_head k a b [] (by simp)

theorem runCalls_burst {ω : Type} (id : String) :
    ∀ (calls : List (String × ω)) (pre : List (TimerClosure ω)), pre ≠ [] →
      runCalls id calls (burstState id pre) =
        burstState id (pre ++ calls.map (fun c => ⟨id, c.1, c.2⟩)) := by
  intro calls
  induction calls with
  | nil => intro pre _; simp [runCalls]
  | cons c rest ih =>
      intro pre hpre
      obtain ⟨m, hm⟩ : ∃ m, pre.length = m + 1 := by
        cases pre with
        | nil => exact absurd rfl hpre
        | cons x xs => exact ⟨xs.length, by simp⟩
      show runCalls id rest (analyzeRealTime (burstState id pre) id c.1 c.2) = _
      have hget : JsMap.get? (burstState id pre).activeAnalyses id =
          some (pre.length - 1) :=
        JsMap.get?_head id (pre.length - 1) []
      have hstep : analyzeRealTime (burstState id pre) id c.1 c.2 =
          burstState id (pre ++ [⟨id, c.1, c.2⟩]) := by
        unfold analyzeRealTime
        rw [hget]
        dsimp only
        unfold burstState
        dsimp only
        rw [jsmap_set_singleton]
        have hlen : (pre ++ [(⟨id, c.1, c.2⟩ : TimerClosure ω)]).length - 1 =
            pre.length := by simp
        rw [RTState.mk.injEq]
        refine ⟨?_, rfl, ?_, rfl, rfl, rfl⟩
        · rw [hlen]
        · rw [hlen, hm]
          simp [List.range_succ]
      rw [hstep]
      have hih := ih (pre ++ [{ analysisId := id, text := c.1, opts := c.2 }]) (by simp)
      rw [hih, List.append_assoc]
      rfl

theorem runCalls_spec {ω : Type} (id : String) (c0 : String × ω)
    (rest : List (String × ω)) :
    runCalls id (c0 :: rest) (emptyRT ω) =
      burstState id ((c0 :: rest).map (fun c => ⟨id, c.1, c.2⟩)) := by
  show runCalls id rest (analyzeRealTime (emptyRT ω) id c0.1 c0.2) = _
  have hfirst : analyzeRealTime (emptyRT ω) id c0.1 c0.2 =
      burstState id [⟨id, c0.1, c0.2⟩] := by
    unfold analyzeRealTime emptyRT burstState JsMap.get? JsMap.set JsMap.has
    simp
  rw [hfirst, runCalls_burst id rest [⟨id, c0.1, c0.2⟩] (by simp)]
  rfl

/-- The post-fire state: the surviving timer `n-1` has fired, executing
the last call's parameters and settling only that promise. -/
def firedState {ω : Type} (analyzeOk : String → ω → Bool)
    (pre : List (TimerClosure ω)) (c : TimerClosure ω) : RTState ω :=
  { activeAnalyses := []
    timers := pre
    cancelled := (List.range (pre.length - 1)).reverse
    fired := [pre.length - 1]
    executed := [(c.text, c.opts)]
    settled := [(pre.length - 1, analyzeOk c.text c.opts)] }

theorem get?_last {β : Type} (l : List β) (h : l ≠ []) :
    l.get? (l.length - 1) = some (l.getLast h) := by
  have hlt : l.length - 1 < l.length := by
    cases l with
    | nil => exact absurd rfl h
    | cons a as => simp
  rw [List.get?_eq_getElem?, List.getElem?_eq_getElem hlt, List.getLast_eq_getElem]

theorem jsmap_del_singleton {ν : Type} (k : String) (x : ν) :
    JsMap.del [(k, x)] k = [] := by
  simp [JsMap.del]

theorem fireTimer_burst {ω : Type} (ok : String → ω → Bool) (id : String)
    (pre : List (TimerClosure ω)) (c : TimerClosure ω) (t : Nat)
    (hpre : pre ≠ [])
    (hlast : pre.get? (pre.length - 1) = some c) (hcid : c.analysisId = id) :
    fireTimer ok (burstState id pre) t =
      if t = pre.length - 1 then firedState ok pre c else burstState id pre := by
  unfold fireTimer
  by_cases ht : t = pre.length - 1
  · rw [if_pos ht]
    rw [if_neg (by
      show ¬ (t ∈ (burstState id pre).cancelled ∨ t ∈ (burstState id pre).fired)
      rintro (hcanc | hfired)
      · show False
        have : t ∈ List.range (pre.length - 1) := by
          simpa [burstState] using hcanc
        rw [List.mem_range] at this
        omega
      · simpa [burstState] using hfired)]
    have htimers : (burstState id pre).timers.get? t = some c := by
      show pre.get? t = some c
      rw [ht]
      exact hlast
    rw [htimers]
    dsimp only
    unfold burstState firedState
    dsimp only
    rw [RTState.mk.injEq]
    refine ⟨?_, rfl, rfl, by rw [ht], by simp, by rw [ht]; simp⟩
    rw [hcid]
    exact jsmap_del_singleton id (pre.length - 1)
  · rw [if_neg ht]
    by_cases hc : t < pre.length - 1
    · rw [if_pos (by
        left
        show t ∈ (List.range (pre.length - 1)).reverse
        rw [List.mem_reverse, List.mem_range]
        exact hc)]
    · have hge : pre.length ≤ t := by omega
      rw [if_neg (by
        rintro (hcanc | hfired)
        · have : t ∈ List.range (pre.length - 1) := by
            simpa [burstState] using hcanc
          rw [List.mem_range] at this
          omega
        · simpa [burstState] using hfired)]
      have htimers : (burstState id pre).timers.get? t = none := by
        show pre.get? t = none
        rw [List.get?_eq_getElem?, List.getElem?_eq_none hge]
      rw [htimers]

theorem fireTimer_fired {ω : Type} (ok : String → ω → Bool)
    (pre : List (TimerClosure ω)) (c : TimerClosure ω) (t : Nat)
    (hpre : pre ≠ []) :
    fireTimer ok (firedState ok pre c) t = firedState ok pre c := by
  unfold fireTimer
  by_cases ht : t = pre.length - 1
  · rw [if_pos (by
      right
      show t ∈ [pre.length - 1]
      simp [ht])]
  · by_cases hc : t < pre.length - 1
    · rw [if_pos (by
        left
        show t ∈ (List.range (pre.length - 1)).reverse
        rw [List.mem_reverse, List.mem_range]
        exact hc)]
    · have hge : pre.length ≤ t := by omega
      rw [if_neg (by
        rintro (hcanc | hfired)
        · have : t ∈ List.range (pre.length - 1) := by
            simpa [firedState] using hcanc
          rw [List.mem_range] at this
          omega
        · have : t = pre.length - 1 := by
            simpa [firedState] using hfired
          exact ht this)]
      have htimers : (firedState ok pre c).timers.get? t = none := by
        show pre.get? t = none
        rw [List.get?_eq_getElem?, List.getElem?_eq_none hge]
      rw [htimers]

theorem runFires_fired {ω : Type} (ok : String → ω → Bool)
    (pre : List (TimerClosure ω)) (c : TimerClosure ω) (hpre : pre ≠ []) :
    ∀ ts, runFires ok (firedState ok pre c) ts = firedState ok pre c := by
  intro ts
  induction ts with
  | nil => rfl
  | cons t rest ih =>
      show runFires ok (fireTimer ok (firedState ok pre c) t) rest = _
      rw [fireTimer_fired ok pre c t hpre]
      exact ih

theorem runFires_burst {ω : Type} (ok : String → ω → Bool) (id : String)
    (pre : List (TimerClosure ω)) (c : TimerClosure ω)
    (hpre : pre ≠ [])
    (hlast : pre.get? (pre.length - 1) = some c) (hcid : c.analysisId = id) :
    ∀ ts, (pre.length - 1) ∈ ts →
      runFires ok (burstState id pre) ts = firedState ok pre c := by
  intro ts
  induction ts with
  | nil => intro h; exact absurd h (by simp)
  | cons t rest ih =>
      intro hmem
      show runFires ok (fireTimer ok (burstState id pre) t) rest = _
      rw [fireTimer_burst ok id pre c t hpre hlast hcid]
      by_cases ht : t = pre.length - 1
      · rw [if_pos ht]
        exact runFires_fired ok pre c hpre rest
      · rw [if_neg ht]
        refine ih ?_
        rcases List.mem_cons.mp hmem with h | h
        · exact absurd h.symm ht
        · exact h

end AnalysisEngine

namespace AnalysisEngine

theorem debounce_final {ω : Type} (analyzeOk : String → ω → Bool) (id : String)
    (c0 : String × ω) (rest : List (String × ω)) (fires : List Nat)
    (hfire : (c0 :: rest).length - 1 ∈ fires) :
    runFires analyzeOk (runCalls id (c0 :: rest) (emptyRT ω)) fires =
      firedState analyzeOk
        ((c0 :: rest).map (fun c => ⟨id, c.1, c.2⟩))
        (⟨id, ((c0 :: rest).getLast (by simp)).1,
          ((c0 :: rest).getLast (by simp)).2⟩ : TimerClosure ω) := by
  have hcne : (c0 :: rest) ≠ [] := by simp
  have hpre : (c0 :: rest).map (fun c => (⟨id, c.1, c.2⟩ : TimerClosure ω)) ≠ [] := by
    simp
  have hlen : ((c0 :: rest).map (fun c => (⟨id, c.1, c.2⟩ : TimerClosure ω))).length =
      (c0 :: rest).length := List.length_map _ _
  have hlast : ((c0 :: rest).map (fun c => (⟨id, c.1, c.2⟩ : TimerClosure ω))).get?
      (((c0 :: rest).map (fun c => (⟨id, c.1, c.2⟩ : TimerClosure ω))).length - 1) =
      some ⟨id, ((c0 :: rest).getLast hcne).1, ((c0 :: rest).getLast hcne).2⟩ := by
    rw [List.get?_map, hlen, get?_last (c0 :: rest) hcne]
    rfl
  rw [runCalls_spec id c0 rest]
  exact runFires_burst analyzeOk id _ _ hpre hlast rfl fires (by rw [hlen]; exact hfire)

end AnalysisEngine

/-- C5: a burst of `analyzeRealTime` calls sharing one `analysisId`, each
arriving before the pending timer fires, executes exactly one analysis —
with the text and options of the last call — and no superseded call's
promise is ever rejected (superseded calls never execute and never produce
an error). -/
theorem c5_debounce_collapsing {ω : Type} (analyzeOk : String → ω → Bool)
    (id : String) (c0 : String × ω) (rest : List (String × ω)) (fires : List Nat)
    (hfire : (c0 :: rest).length - 1 ∈ fires) :
    (AnalysisEngine.runFires analyzeOk
        (AnalysisEngine.runCalls id (c0 :: rest) (AnalysisEngine.emptyRT ω))
        fires).executed =
      [(((c0 :: rest).getLast (by simp)).1, ((c0 :: rest).getLast (by simp)).2)] ∧
    ∀ i, i < (c0 :: rest).length - 1 →
      (i, false) ∉ (AnalysisEngine.runFires analyzeOk
        (AnalysisEngine.runCalls id (c0 :: rest) (AnalysisEngine.emptyRT ω))
        fires).settled := by
  rw [AnalysisEngine.debounce_final analyzeOk id c0 rest fires hfire]
  constructor
  · rfl
  · intro i hi hmem
    have : (i, false) ∈ [((((c0 :: rest).map
        (fun c => (⟨id, c.1, c.2⟩ : AnalysisEngine.TimerClosure ω))).length - 1),
        analyzeOk ((c0 :: rest).getLast (by simp)).1 ((c0 :: rest).getLast (by simp)).2)] :=
      hmem
    rw [List.mem_singleton, Prod.mk.injEq] at this
    rw [List.length_map] at this
    omega

/-- C10: a superseded `analyzeRealTime` call's promise never settles: it is
neither resolved nor rejected, so a caller awaiting it waits forever. -/
theorem c10_superseded_promise_never_settles {ω : Type}
    (analyzeOk : String → ω → Bool) (id : String) (c0 : String × ω)
    (rest : List (String × ω)) (fires : List Nat)
    (hfire : (c0 :: rest).length - 1 ∈ fires) :
    ∀ i, i < (c0 :: rest).length - 1 → ∀ b,
      (i, b) ∉ (AnalysisEngine.runFires analyzeOk
        (AnalysisEngine.runCalls id (c0 :: rest) (AnalysisEngine.emptyRT ω))
        fires).settled := by
  rw [AnalysisEngine.debounce_final analyzeOk id c0 rest fires hfire]
  intro i hi b hmem
  have : (i, b) ∈ [((((c0 :: rest).map
      (fun c => (⟨id, c.1, c.2⟩ : AnalysisEngine.TimerClosure ω))).length - 1),
      analyzeOk ((c0 :: rest).getLast (by simp)).1 ((c0 :: rest).getLast (by simp)).2)] :=
    hmem
  rw [List.mem_singleton, Prod.mk.injEq] at this
  rw [List.length_map] at this
  omega

/-- C5 (witness): three calls with `analysisId = "x"` in one debounce
window, all timers fired: exactly the last call's parameters execute. -/
theorem c5_debounce_collapsing_witness :
    (AnalysisEngine.runFires (fun _ _ => true)
        (AnalysisEngine.runCalls "x" [("a", 1), ("b", 2), ("c", 3)]
          (AnalysisEngine.emptyRT Nat)) [0, 1, 2]).executed = [("c", 3)] ∧
    ∀ i, i < 2 →
      (i, false) ∉ (AnalysisEngine.runFires (fun _ _ => true)
        (AnalysisEngine.runCalls "x" [("a", 1), ("b", 2), ("c", 3)]
          (AnalysisEngine.emptyRT Nat)) [0, 1, 2]).settled :=
  c5_debounce_collapsing (fun _ _ => true) "x" ("a", 1) [("b", 2), ("c", 3)]
    [0, 1, 2] (by decide)

/-- C10 (witness): the same burst shape with the timers fired in reverse
order — promises of the two superseded calls never settle. -/
theorem c10_superseded_promise_never_settles_witness :
    (0, false) ∉ (AnalysisEngine.runFires (fun _ _ => false)
        (AnalysisEngine.runCalls "y" [("p", 10), ("q", 20), ("r", 30)]
          (AnalysisEngine.emptyRT Nat)) [2, 1, 0]).settled ∧
    (0, true) ∉ (AnalysisEngine.runFires (fun _ _ => false)
        (AnalysisEngine.runCalls "y" [("p", 10), ("q", 20), ("r", 30)]
          (AnalysisEngine.emptyRT Nat)) [2, 1, 0]).settled ∧
    (1, false) ∉ (AnalysisEngine.runFires (fun _ _ => false)
        (AnalysisEngine.runCalls "y" [("p", 10), ("q", 20), ("r", 30)]
          (AnalysisEngine.emptyRT Nat)) [2, 1, 0]).settled ∧
    (1, true) ∉ (AnalysisEngine.runFires (fun _ _ => false)
        (AnalysisEngine.runCalls "y" [("p", 10), ("q", 20), ("r", 30)]
          (AnalysisEngine.emptyRT Nat)) [2, 1, 0]).settled :=
  ⟨c10_superseded_promise_never_settles (fun _ _ => false) "y" ("p", 10)
      [("q", 20), ("r", 30)] [2, 1, 0] (by decide) 0 (by decide) false,
    c10_superseded_promise_never_settles (fun _ _ => false) "y" ("p", 10)
      [("q", 20), ("r", 30)] [2, 1, 0] (by decide) 0 (by decide) true,
    c10_superseded_promise_never_settles (fun _ _ => false) "y" ("p", 10)
      [("q", 20), ("r", 30)] [2, 1, 0] (by decide) 1 (by decide) false,
    c10_superseded_promise_never_settles (fun _ _ => false) "y" ("p", 10)
      [("q", 20), ("r", 30)] [2, 1, 0] (by decide) 1 (by decide) true⟩

namespace AnalysisEngine

/-- Result of `analyze` as the claims observe it: the pipeline payload plus
the `fromCache` metadata flag.  (Statistics counters and timing metadata
are bookkeeping with no influence on control flow and are not modelled.) -/
structure Result (ρ : Type) where
  payload : ρ
  fromCache : Bool
deriving DecidableEq

/-- `AnalysisEngine.analyze`: input validation, cache lookup, delegated
pipeline and cache write.  `input` is `none` for a non-string JS value and
`some t` for a string (`!text` is true for the empty string, so `""` fails
validation); `perform` stands for the awaited
`performAnalysis` sub-pipeline (TextAnalyzer → IssueDetector), which is
never reached on the validation-error paths; `optionsStr` is the canonical
JSON serialization of the options that `generateKey` hashes. -/
def analyze (ρ : Type) (cfgEnableCache : Bool) (cfgMaxTextLength : Nat)
    (perform : String → ρ) (calcSize : ρ → Nat)
    (st : AnalysisCache.State ρ) (input : Option String)
    (optionsStr : List Char) (cacheTtl : Option Nat) (now : Nat) :
    Except String (Result ρ) × AnalysisCache.State ρ :=
  match input with
  | none => (.error "Invalid text input", st)
  | some text =>
      if text = "" then (.error "Invalid text input", st)
      else if cfgMaxTextLength < text.length then
        (.error s!"Text too long (max {cfgMaxTextLength} characters)", st)
      else
        let key := AnalysisCache.generateKey text.data optionsStr
        if cfgEnableCache then
          match AnalysisCache.get st key now with
          | (some cached, st1) => (.ok { payload := cached, fromCache := true }, st1)
          | (none, st1) =>
              let result := perform text
              let st2 := AnalysisCache.set calcSize st1 key result
                (some (AnalysisCache.jsOrNat cacheTtl st1.maxAge)) now
              (.ok { payload := result, fromCache := false }, st2)
        else
          (.ok { payload := perform text, fromCache := false }, st)

end AnalysisEngine

/-- C6: `AnalysisEngine.analyze("")` does *not* resolve with an empty
result — the `!text` validation check is true for the empty string, so the
call rejects with `'Invalid text input'` before any cache lookup or
provider call.  This contradicts the claim (and the repository's own test
`should handle empty text`, which awaits `analyze('')` and expects
`issues`/`suggestions` to be empty lists). -/
theorem c6_empty_text_rejects (ρ : Type) (cfgEnableCache : Bool)
    (cfgMaxTextLength : Nat) (perform : String → ρ) (calcSize : ρ → Nat)
    (st : AnalysisCache.State ρ) (optionsStr : List Char)
    (cacheTtl : Option Nat) (now : Nat) :
    (AnalysisEngine.analyze ρ cfgEnableCache cfgMaxTextLength perform calcSize st
        (some "") optionsStr cacheTtl now) =
      (.error "Invalid text input", st) := by
  rfl

namespace UnderlineRenderer

/-- A node of the target element's subtree, for the state space the
renderer manipulates on a flat text element: text nodes, and
`feelly-underline` marker spans (identified by a fresh numeric id standing
for the span element's identity; the `data-*` attributes are visual
metadata with no behavioural role).  Markers may nest when a later wrap's
range swallows an earlier marker. -/
inductive RNode where
  | text (data : List Char)
  | marker (id : Nat) (children : List RNode)

/-- `textContent` of a node list: concatenation of all text data in
document order, including text inside markers. -/
def textContentList : List RNode → List Char
  | [] => []
  | .text d :: rest => d ++ textContentList rest
  | .marker _ cs :: rest => textContentList cs ++ textContentList rest

/-- Number of text nodes in the subtree. -/
def textNodeCount : List RNode → Nat
  | [] => 0
  | .text _ :: rest => 1 + textNodeCount rest
  | .marker _ cs :: rest => textNodeCount cs + textNodeCount rest

/-- Number of marker nodes with the given id (deep). -/
def midCount (j : Nat) : List RNode → Nat
  | [] => 0
  | .text _ :: rest => midCount j rest
  | .marker i cs :: rest =>
      (if i = j then 1 else 0) + midCount j cs + midCount j rest

/-- Total number of marker nodes (deep). -/
def markerTotal : List RNode → Nat
  | [] => 0
  | .text _ :: rest => markerTotal rest
  | .marker _ cs :: rest => 1 + markerTotal cs + markerTotal rest

/-- Text content of the first marker with the given id (deep, document
order), as the walker would find it. -/
def markerText (j : Nat) : List RNode → Option (List Char)
  | [] => none
  | .text _ :: rest => markerText j rest
  | .marker i cs :: rest =>
      if i = j then some (textContentList cs)
      else
        match markerText j cs with
        | some r => some r
        | none => markerText j rest

/-- `getTextNodes` on a flat element, with child positions: the tree
walker visits every text node in document order, rejects those whose
parent element has the `feelly-underline` class (all text inside markers)
and whitespace-only nodes; what remains are the non-blank text nodes that
are direct children of the target. -/
def visibleIndexed (children : List RNode) : List (Nat × List Char) :=
  children.enum.filterMap (fun p =>
    match p.2 with
    | RNode.text d => if jsTrim d = [] then none else some (p.1, d)
    | RNode.marker _ _ => none)

/-- A resolved DOM range: (start child index, start offset, end child
index, end offset). -/
structure DomRange where
  startNode : Nat
  startOffset : Nat
  endNode : Nat
  endOffset : Nat
deriving DecidableEq

/-- The loop of `createRangeFromIndices`: a single pass accumulating the
running character offset; the start position is taken at the first node
whose span (inclusive on both ends) contains `startIndex`, and the loop
breaks at the first node containing `endIndex` (returning `null` if either
end is unresolved). -/
def createRangeGo (startIndex endIndex : Int) :
    List (Nat × List Char) → Int → Option (Nat × Nat) → Option DomRange
  | [], _, _ => none
  | (idx, d) :: rest, currentIndex, startFound =>
      let nodeEnd := currentIndex + (d.length : Int)
      let startFound2 :=
        match startFound with
        | none =>
            if startIndex ≥ currentIndex ∧ startIndex ≤ nodeEnd then
              some (idx, (startIndex - currentIndex).toNat)
            else none
        | some s => some s
      if endIndex ≥ currentIndex ∧ endIndex ≤ nodeEnd then
        match startFound2 with
        | none => none
        | some (sn, so) => some ⟨sn, so, idx, (endIndex - currentIndex).toNat⟩
      else createRangeGo startIndex endIndex rest nodeEnd startFound2

/-- `UnderlineRenderer.createRangeFromIndices`. -/
def createRangeFromIndices (textNodes : List (Nat × List Char))
    (startIndex endIndex : Int) : Option DomRange :=
  createRangeGo startIndex endIndex textNodes 0 none

/-- Wrap the resolved range in a fresh marker span, following the DOM
semantics of `surroundContents` / `extractContents` + `insertNode` (both
render paths perform the same splice on this state space — the
`getClientRects` multi-line distinction only adds a styling class).  For a
range inside one text node the node splits into prefix, marker (holding
the extracted text; empty when the range is collapsed — `setEnd` before
the start collapses the range to the end point), and suffix.  For a range
across sibling text nodes the partially contained end nodes split, fully
contained nodes in between (including earlier markers) move whole into the
new marker, and `insertNode`'s `splitText` leaves an empty text node after
the inserted span. -/
def wrapRange (mId : Nat) (r : DomRange) (children : List RNode) : List RNode :=
  if r.startNode = r.endNode then
    match children.get? r.startNode with
    | some (RNode.text d) =>
        let e := r.endOffset
        let s := min r.startOffset e
        children.take r.startNode ++
          (RNode.text (d.take s) ::
            RNode.marker mId (if s < e then [RNode.text ((d.take e).drop s)] else []) ::
            RNode.text (d.drop e) :: []) ++
          children.drop (r.startNode + 1)
    | _ => children
  else
    match children.get? r.startNode, children.get? r.endNode with
    | some (RNode.text ds), some (RNode.text de) =>
        children.take r.startNode ++
          (RNode.text (ds.take r.startOffset) ::
            RNode.marker mId (RNode.text (ds.drop r.startOffset) ::
              ((children.drop (r.startNode + 1)).take (r.endNode - r.startNode - 1) ++
                [RNode.text (de.take r.endOffset)])) ::
            RNode.text [] :: RNode.text (de.drop r.endOffset) :: []) ++
          children.drop (r.endNode + 1)
    | _, _ => children

/-- `UnderlineRenderer.renderSingleUnderline` (the issue's type/severity
only pick CSS classes); returns the updated children and whether a marker
was created (`trackUnderline` ran). -/
def renderSingleUnderline (mId : Nat) (startIndex endIndex : Int)
    (children : List RNode) : List RNode × Bool :=
  match createRangeFromIndices (visibleIndexed children) startIndex endIndex with
  | none => (children, false)
  | some r => (wrapRange mId r children, true)

/-- The part of an issue `renderUnderlines` acts on. -/
structure RIssue where
  startIndex : Int
  endIndex : Int
deriving DecidableEq

/-- Stable insertion relative to the `a.startIndex - b.startIndex`
comparator (JS `Array.prototype.sort` is stable). -/
def insertIssue (i : RIssue) : List RIssue → List RIssue
  | [] => [i]
  | j :: rest =>
      if j.startIndex ≤ i.startIndex then j :: insertIssue i rest
      else i :: j :: rest

/-- Ascending stable sort by `startIndex`. -/
def sortIssues (issues : List RIssue) : List RIssue :=
  issues.foldl (fun acc i => insertIssue i acc) []

/-- Renderer state for one target element: live children, the
`activeUnderlines` set in insertion order, and the fresh marker-identity
counter. -/
structure RenderState where
  children : List RNode
  tracked : List Nat
  nextId : Nat

/-- Process one issue of the batch. -/
def renderStep (st : RenderState) (i : RIssue) : RenderState :=
  match renderSingleUnderline st.nextId i.startIndex i.endIndex st.children with
  | (ch, true) =>
      { children := ch, tracked := st.tracked ++ [st.nextId], nextId := st.nextId + 1 }
  | (ch, false) => { st with children := ch }

/-- `UnderlineRenderer.renderUnderlines` on a fresh renderer (the initial
`clearUnderlines` is a no-op: no underline set exists for the target
yet). -/
def renderUnderlines (issues : List RIssue) (children : List RNode) : RenderState :=
  (sortIssues issues).foldl renderStep
    { children := children, tracked := [], nextId := 0 }

/-- Remove a marker that is a direct child of this list, splicing its
children into its place (`insertBefore` loop + `removeChild`). -/
def removeInList (mId : Nat) : List RNode → Option (List RNode)
  | [] => none
  | RNode.text d :: rest =>
      match removeInList mId rest with
      | some r => some (RNode.text d :: r)
      | none => none
  | RNode.marker i cs :: rest =>
      if i = mId then some (cs ++ rest)
      else
        match removeInList mId rest with
        | some r => some (RNode.marker i cs :: r)
        | none => none

/-- `Node.normalize()`: drop empty text nodes and merge adjacent text
nodes, throughout the subtree. -/
def normalizeList : List RNode → List RNode
  | [] => []
  | RNode.text d :: rest =>
      let r := normalizeList rest
      if d = [] then r
      else
        match r with
        | RNode.text d2 :: r2 => RNode.text (d ++ d2) :: r2
        | _ => RNode.text d :: r
  | RNode.marker i cs :: rest => RNode.marker i (normalizeList cs) :: normalizeList rest

/-- `UnderlineRenderer.removeUnderline`: splice the marker's children back
into its parent, remove the marker, then `parent.normalize()`.  When the
marker is a direct child of the target, the whole child list normalizes;
otherwise the removal happens inside the marker that contains it and only
that subtree normalizes. -/
def removeUnderline (mId : Nat) (children : List RNode) : List RNode :=
  match removeInList mId children with
  | some spliced => normalizeList spliced
  | none =>
      match children with
      | [] => []
      | RNode.text d :: rest => RNode.text d :: removeUnderline mId rest
      | RNode.marker i cs :: rest =>
          RNode.marker i (removeUnderline mId cs) :: removeUnderline mId rest

/-- `UnderlineRenderer.clearUnderlines`: remove every tracked underline in
insertion order. -/
def clearUnderlines (st : RenderState) : List RNode :=
  st.tracked.foldl (fun ch t => removeUnderline t ch) st.children

end UnderlineRenderer

def c2Children : List UnderlineRenderer.RNode := [.text ['a', 'b', 'c', 'd']]

def c2Issues : List UnderlineRenderer.RIssue := [⟨0, 1⟩, ⟨2, 3⟩]

/-- C2: processing issues in ascending `startIndex` order does *not* keep
later issues' offsets valid: `getTextNodes` skips text inside the marker
created for an earlier issue, so the second issue's offsets resolve
against a text sequence missing the wrapped characters.  On the single
text node `"abcd"` with issues `[0,1)` and `[2,3)`, the second issue wraps
`"d"`, not the substring `"c"` at `[2,3)` of the originally extracted
text. -/
theorem c2_second_issue_wraps_wrong_text :
    UnderlineRenderer.markerText 1
        (UnderlineRenderer.renderUnderlines c2Issues c2Children).children =
      some ['d'] ∧
    jsSubstring (UnderlineRenderer.textContentList c2Children) 2 3 = ['c'] ∧
    (['d'] : List Char) ≠ ['c'] := by
  have hch : (UnderlineRenderer.renderUnderlines c2Issues c2Children).children =
      [.text [], .marker 0 [.text ['a']], .text ['b', 'c'],
        .marker 1 [.text ['d']], .text []] := rfl
  have htc : UnderlineRenderer.textContentList c2Children = ['a', 'b', 'c', 'd'] := by
    simp [c2Children, UnderlineRenderer.textContentList]
  refine ⟨?_, by rw [htc]; decide, by decide⟩
  rw [hch]
  simp [UnderlineRenderer.markerText, UnderlineRenderer.textContentList]

def c3BadChildren : List UnderlineRenderer.RNode := [.text ['a', 'b'], .text ['c', 'd']]

def c3Issues : List UnderlineRenderer.RIssue := [⟨0, 2⟩]

/-- C3 (counterexample): on a target whose text-node structure is not
normalized — two adjacent sibling text nodes `"ab"`, `"cd"` — rendering
one issue over `[0,2)` and clearing it leaves a single merged text node
`"abcd"`: the text content round-trips but the text-node count does not
(`parent.normalize()` in `removeUnderline` merges the previously separate
siblings). -/
theorem c3_round_trip_counterexample :
    ¬ (UnderlineRenderer.textContentList
          (UnderlineRenderer.clearUnderlines
            (UnderlineRenderer.renderUnderlines c3Issues c3BadChildren)) =
        UnderlineRenderer.textContentList c3BadChildren ∧
      UnderlineRenderer.textNodeCount
          (UnderlineRenderer.clearUnderlines
            (UnderlineRenderer.renderUnderlines c3Issues c3BadChildren)) =
        UnderlineRenderer.textNodeCount c3BadChildren) := by
  have hrender : UnderlineRenderer.renderUnderlines c3Issues c3BadChildren =
      { children := [.text [], .marker 0 [.text ['a', 'b']], .text [], .text ['c', 'd']]
        tracked := [0], nextId := 1 } := rfl
  have hclear : UnderlineRenderer.clearUnderlines
      { children := [.text [], .marker 0 [.text ['a', 'b']], .text [], .text ['c', 'd']]
        tracked := [0], nextId := 1 } = [.text ['a', 'b', 'c', 'd']] := by
    simp [UnderlineRenderer.clearUnderlines, UnderlineRenderer.removeUnderline,
      UnderlineRenderer.removeInList, UnderlineRenderer.normalizeList]
  rw [hrender, hclear]
  intro ⟨h1, h2⟩
  simp [UnderlineRenderer.textNodeCount, c3BadChildren] at h2

namespace UnderlineRenderer

theorem textContentList_append (l1 l2 : List RNode) :
    textContentList (l1 ++ l2) = textContentList l1 ++ textContentList l2 := by
  induction l1 with
  | nil => simp [textContentList]
  | cons n rest ih =>
      cases n with
      | text d => simp [textContentList, ih]
      | marker i cs => simp [textContentList, ih]

theorem midCount_append (j : Nat) (l1 l2 : List RNode) :
    midCount j (l1 ++ l2) = midCount j l1 + midCount j l2 := by
  induction l1 with
  | nil => simp [midCount]
  | cons n rest ih =>
      cases n with
      | text d => simp [midCount, ih]
      | marker i cs => simp [midCount, ih]; omega

theorem markerTotal_append (l1 l2 : List RNode) :
    markerTotal (l1 ++ l2) = markerTotal l1 + markerTotal l2 := by
  induction l1 with
  | nil => simp [markerTotal]
  | cons n rest ih =>
      cases n with
      | text d => simp [markerTotal, ih]
      | marker i cs => simp [markerTotal, ih]; omega

theorem nodeListInd {P : List RNode → Prop}
    (hnil : P [])
    (htext : ∀ d rest, P rest → P (RNode.text d :: rest))
    (hmarker : ∀ i cs rest, P cs → P rest → P (RNode.marker i cs :: rest)) :
    ∀ l, P l
  | [] => hnil
  | .text d :: rest => htext d rest (nodeListInd hnil htext hmarker rest)
  | .marker i cs :: rest =>
      hmarker i cs rest (nodeListInd hnil htext hmarker cs)
        (nodeListInd hnil htext hmarker rest)

theorem midCount_le_markerTotal (j : Nat) (l : List RNode) :
    midCount j l ≤ markerTotal l := by
  induction l using nodeListInd with
  | hnil => simp [midCount, markerTotal]
  | htext d rest ih => simpa [midCount, markerTotal] using ih
  | hmarker i cs rest ihcs ihrest =>
      simp only [midCount, markerTotal]
      split <;> omega

theorem removeInList_spec (m : Nat) :
    ∀ (l sp : List RNode), removeInList m l = some sp →
      textContentList sp = textContentList l ∧
      (∀ j, midCount j sp + (if j = m then 1 else 0) = midCount j l) ∧
      markerTotal sp + 1 = markerTotal l := by
  intro l
  induction l with
  | nil => intro sp h; simp [removeInList] at h
  | cons n rest ih =>
      intro sp h
      cases n with
      | text d =>
          rw [removeInList] at h
          cases hr : removeInList m rest with
          | none => rw [hr] at h; exact absurd h (by simp)
          | some r =>
              rw [hr] at h
              simp only [Option.some.injEq] at h
              obtain ⟨hc, hm, ht⟩ := ih r hr
              subst h
              refine ⟨by simp [textContentList, hc], ?_, by simpa [markerTotal] using ht⟩
              intro j
              have := hm j
              simp only [midCount]
              omega
      | marker i cs =>
          rw [removeInList] at h
          by_cases hi : i = m
          · rw [if_pos hi] at h
            simp only [Option.some.injEq] at h
            subst h
            refine ⟨by simp [textContentList, textContentList_append], ?_, ?_⟩
            · intro j
              rw [midCount_append]
              simp only [midCount]
              subst hi
              by_cases hj : i = j
              · subst hj; simp; omega
              · have hj2 : ¬ j = i := fun h => hj h.symm
                simp [hj, hj2]
            · rw [markerTotal_append]
              simp only [markerTotal]
              omega
          · rw [if_neg hi] at h
            cases hr : removeInList m rest with
            | none => rw [hr] at h; exact absurd h (by simp)
            | some r =>
                rw [hr] at h
                simp only [Option.some.injEq] at h
                obtain ⟨hc, hm, ht⟩ := ih r hr
                subst h
                refine ⟨by simp [textContentList, hc], ?_, ?_⟩
                · intro j
                  have := hm j
                  simp only [midCount]
                  omega
                · simp only [markerTotal]
                  omega

theorem removeInList_none_no_direct (m : Nat) :
    ∀ l : List RNode, removeInList m l = none →
      ∀ i cs, RNode.marker i cs ∈ l → i ≠ m := by
  intro l
  induction l with
  | nil => intro _ i cs h; simp at h
  | cons n rest ih =>
      intro h i cs hmem
      cases n with
      | text d =>
          rw [removeInList] at h
          cases hr : removeInList m rest with
          | none =>
              rcases List.mem_cons.mp hmem with he | he
              · exact absurd he (by simp)
              · exact ih hr i cs he
          | some r => rw [hr] at h; exact absurd h (by simp)
      | marker i2 cs2 =>
          rw [removeInList] at h
          by_cases hi : i2 = m
          · rw [if_pos hi] at h; exact absurd h (by simp)
          · rw [if_neg hi] at h
            cases hr : removeInList m rest with
            | none =>
                rcases List.mem_cons.mp hmem with he | he
                · cases he; exact hi
                · exact ih hr i cs he
            | some r => rw [hr] at h; exact absurd h (by simp)

theorem midCount_zero_removeInList_none (m : Nat) :
    ∀ l : List RNode, midCount m l = 0 → removeInList m l = none := by
  intro l
  induction l with
  | nil => intro _; rfl
  | cons n rest ih =>
      intro h
      cases n with
      | text d =>
          simp only [midCount] at h
          rw [removeInList, ih h]
      | marker i cs =>
          simp only [midCount] at h
          have hi : i ≠ m := by
            intro he
            rw [if_pos he] at h
            omega
          rw [if_neg hi] at h
          rw [removeInList, if_neg hi, ih (by omega)]

end UnderlineRenderer

namespace UnderlineRenderer


theorem textContentList_normalizeList (l : List RNode) :
    textContentList (normalizeList l) = textContentList l := by
  induction l using nodeListInd with
  | hnil => simp [normalizeList]
  | htext d rest ih =>
      by_cases hd : d = []
      · simp [normalizeList, hd, textContentList, ih]
      · cases hr : normalizeList rest with
        | nil =>
            have hrest : textContentList rest = [] := by
              rw [← ih, hr]; simp [textContentList]
            simp [normalizeList, hd, hr, textContentList, hrest]
        | cons n2 r2 =>
            cases n2 with
            | text d2 =>
                have hrest : textContentList rest = d2 ++ textContentList r2 := by
                  rw [← ih, hr]; simp [textContentList]
                simp [normalizeList, hd, hr, textContentList, hrest]
            | marker i2 cs2 =>
                have hrest : textContentList rest =
                    textContentList cs2 ++ textContentList r2 := by
                  rw [← ih, hr]; simp [textContentList]
                simp [normalizeList, hd, hr, textContentList, hrest]
  | hmarker i cs rest ihcs ihrest =>
      simp [normalizeList, textContentList, ihcs, ihrest]

theorem midCount_normalizeList (j : Nat) (l : List RNode) :
    midCount j (normalizeList l) = midCount j l := by
  induction l using nodeListInd with
  | hnil => simp [normalizeList]
  | htext d rest ih =>
      by_cases hd : d = []
      · simp [normalizeList, hd, midCount, ih]
      · cases hr : normalizeList rest with
        | nil =>
            have hrest : midCount j rest = 0 := by
              rw [← ih, hr]; simp [midCount]
            simp [normalizeList, hd, hr, midCount, hrest]
        | cons n2 r2 =>
            cases n2 with
            | text d2 =>
                have hrest : midCount j rest = midCount j r2 := by
                  rw [← ih, hr]; simp [midCount]
                simp [normalizeList, hd, hr, midCount, hrest]
            | marker i2 cs2 =>
                have hrest : midCount j rest =
                    (if i2 = j then 1 else 0) + midCount j cs2 + midCount j r2 := by
                  rw [← ih, hr]; simp [midCount]
                simp [normalizeList, hd, hr, midCount, hrest]
  | hmarker i cs rest ihcs ihrest =>
      simp [normalizeList, midCount, ihcs, ihrest]

theorem markerTotal_normalizeList (l : List RNode) :
    markerTotal (normalizeList l) = markerTotal l := by
  induction l using nodeListInd with
  | hnil => simp [normalizeList]
  | htext d rest ih =>
      by_cases hd : d = []
      · simp [normalizeList, hd, markerTotal, ih]
      · cases hr : normalizeList rest with
        | nil =>
            have hrest : markerTotal rest = 0 := by
              rw [← ih, hr]; simp [markerTotal]
            simp [normalizeList, hd, hr, markerTotal, hrest]
        | cons n2 r2 =>
            cases n2 with
            | text d2 =>
                have hrest : markerTotal rest = markerTotal r2 := by
                  rw [← ih, hr]; simp [markerTotal]
                simp [normalizeList, hd, hr, markerTotal, hrest]
            | marker i2 cs2 =>
                have hrest : markerTotal rest =
                    1 + markerTotal cs2 + markerTotal r2 := by
                  rw [← ih, hr]; simp [markerTotal]
                simp [normalizeList, hd, hr, markerTotal, hrest]
  | hmarker i cs rest ihcs ihrest =>
      simp [normalizeList, markerTotal, ihcs, ihrest]

theorem normalizeList_no_markers (l : List RNode) :
    markerTotal l = 0 →
    normalizeList l =
      if textContentList l = [] then [] else [RNode.text (textContentList l)] := by
  induction l using nodeListInd with
  | hnil => intro _; simp [normalizeList, textContentList]
  | htext d rest ih =>
      intro h
      have hrest : markerTotal rest = 0 := by simpa [markerTotal] using h
      have ih2 := ih hrest
      by_cases hd : d = []
      · subst hd
        simp [normalizeList, textContentList, ih2]
      · by_cases hc : textContentList rest = []
        · rw [if_pos hc] at ih2
          simp [normalizeList, hd, ih2, textContentList, hc]
        · rw [if_neg hc] at ih2
          have hne : ¬ (d ++ textContentList rest = []) := by
            simp [hd]
          simp [normalizeList, hd, ih2, textContentList, hne]
  | hmarker i cs rest ihcs ihrest =>
      intro h
      simp only [markerTotal] at h
      omega

theorem removeUnderline_zero (m : Nat) (l : List RNode) :
    midCount m l = 0 → removeUnderline m l = l := by
  induction l using nodeListInd with
  | hnil => intro _; simp [removeUnderline, removeInList]
  | htext d rest ih =>
      intro h
      have hrest : midCount m rest = 0 := by simpa [midCount] using h
      rw [removeUnderline, midCount_zero_removeInList_none m _ h]
      simp [ih hrest]
  | hmarker i cs rest ihcs ihrest =>
      intro h
      have hnone := midCount_zero_removeInList_none m _ h
      simp only [midCount] at h
      have hcs : midCount m cs = 0 := by omega
      have hrest : midCount m rest = 0 := by omega
      rw [removeUnderline, hnone]
      simp [ihcs hcs, ihrest hrest]

theorem textContentList_removeUnderline (m : Nat) (l : List RNode) :
    textContentList (removeUnderline m l) = textContentList l := by
  induction l using nodeListInd with
  | hnil => simp [removeUnderline, removeInList]
  | htext d rest ih =>
      rw [removeUnderline]
      cases hr : removeInList m (RNode.text d :: rest) with
      | some sp =>
          obtain ⟨hc, _, _⟩ := removeInList_spec m _ sp hr
          simp [textContentList_normalizeList, hc]
      | none => simp [textContentList, ih]
  | hmarker i cs rest ihcs ihrest =>
      rw [removeUnderline]
      cases hr : removeInList m (RNode.marker i cs :: rest) with
      | some sp =>
          obtain ⟨hc, _, _⟩ := removeInList_spec m _ sp hr
          simp [textContentList_normalizeList, hc]
      | none => simp [textContentList, ihcs, ihrest]


theorem removeUnderline_counts (m : Nat) (l : List RNode) :
    midCount m l = 1 →
      (∀ j, midCount j (removeUnderline m l) + (if j = m then 1 else 0) = midCount j l) ∧
      markerTotal (removeUnderline m l) + 1 = markerTotal l := by
  induction l using nodeListInd with
  | hnil => intro h; simp [midCount] at h
  | htext d rest ih =>
      intro h
      rw [removeUnderline]
      cases hr : removeInList m (RNode.text d :: rest) with
      | some sp =>
          obtain ⟨_, hmc, htc⟩ := removeInList_spec m _ sp hr
          refine ⟨?_, ?_⟩
          · intro j
            rw [midCount_normalizeList]
            exact hmc j
          · rw [markerTotal_normalizeList]
            exact htc
      | none =>
          have hrest : midCount m rest = 1 := by simpa [midCount] using h
          obtain ⟨ihc, iht⟩ := ih hrest
          refine ⟨?_, ?_⟩
          · intro j
            have := ihc j
            simp only [midCount]
            omega
          · simpa [markerTotal] using iht
  | hmarker i cs rest ihcs ihrest =>
      intro h
      rw [removeUnderline]
      cases hr : removeInList m (RNode.marker i cs :: rest) with
      | some sp =>
          obtain ⟨_, hmc, htc⟩ := removeInList_spec m _ sp hr
          refine ⟨?_, ?_⟩
          · intro j
            rw [midCount_normalizeList]
            exact hmc j
          · rw [markerTotal_normalizeList]
            exact htc
      | none =>
          have hi : i ≠ m := by
            intro he
            rw [removeInList, if_pos he] at hr
            exact absurd hr (by simp)
          simp only [midCount, if_neg hi] at h
          by_cases hcs1 : midCount m cs = 1
          · have hrest0 : midCount m rest = 0 := by omega
            obtain ⟨ihc, iht⟩ := ihcs hcs1
            rw [removeUnderline_zero m rest hrest0]
            refine ⟨?_, ?_⟩
            · intro j
              have := ihc j
              simp only [midCount]
              omega
            · simp only [markerTotal]
              omega
          · have hcs0 : midCount m cs = 0 := by omega
            have hrest1 : midCount m rest = 1 := by omega
            obtain ⟨ihc, iht⟩ := ihrest hrest1
            rw [removeUnderline_zero m cs hcs0]
            refine ⟨?_, ?_⟩
            · intro j
              have := ihc j
              simp only [midCount]
              omega
            · simp only [markerTotal]
              omega

theorem removeInList_isSome (m : Nat) :
    ∀ l : List RNode, markerTotal l = 1 → midCount m l = 1 →
      ∃ sp, removeInList m l = some sp := by
  intro l
  induction l with
  | nil => intro h _; simp [markerTotal] at h
  | cons n rest ih =>
      intro ht hm
      cases n with
      | text d =>
          simp only [markerTotal] at ht
          simp only [midCount] at hm
          obtain ⟨sp, hsp⟩ := ih ht hm
          exact ⟨RNode.text d :: sp, by rw [removeInList, hsp]⟩
      | marker i cs =>
          simp only [markerTotal] at ht
          simp only [midCount] at hm
          have hcs := midCount_le_markerTotal m cs
          have hrest := midCount_le_markerTotal m rest
          have htr : markerTotal rest ≤ markerTotal rest := le_refl _
          have hi : i = m := by
            by_contra hne
            rw [if_neg hne] at hm
            omega
          exact ⟨cs ++ rest, by rw [removeInList, if_pos hi]⟩

theorem removeUnderline_last (m : Nat) (l : List RNode)
    (ht : markerTotal l = 1) (hm : midCount m l = 1)
    (hc : textContentList l ≠ []) :
    removeUnderline m l = [RNode.text (textContentList l)] := by
  obtain ⟨sp, hsp⟩ := removeInList_isSome m l ht hm
  obtain ⟨hcsp, _, htsp⟩ := removeInList_spec m l sp hsp
  have hru : removeUnderline m l = normalizeList sp := by
    cases l with
    | nil => simp [removeInList] at hsp
    | cons n rest =>
        cases n with
        | text d => rw [removeUnderline, hsp]
        | marker i cs => rw [removeUnderline, hsp]
  rw [hru, normalizeList_no_markers sp (by omega), hcsp, if_neg hc]

theorem clear_fold (d : List Char) (hd : d ≠ []) :
    ∀ (ts : List Nat), ts ≠ [] → ∀ (ch : List RNode), ts.Nodup →
    (∀ j ∈ ts, midCount j ch = 1) → markerTotal ch = ts.length →
    textContentList ch = d →
    ts.foldl (fun c t => removeUnderline t c) ch = [RNode.text d] := by
  intro ts
  induction ts with
  | nil => intro h; exact absurd rfl h
  | cons t ts ih =>
      intro _ ch hnd hcounts htot hcont
      cases ts with
      | nil =>
          simp only [List.foldl]
          have hlast := removeUnderline_last t ch (by simpa using htot)
            (hcounts t (by simp)) (by rw [hcont]; exact hd)
          rw [hlast, hcont]
      | cons t2 ts2 =>
          simp only [List.foldl]
          have hmt : midCount t ch = 1 := hcounts t (by simp)
          obtain ⟨hcnt, htot2⟩ := removeUnderline_counts t ch hmt
          have hnotmem : t ∉ t2 :: ts2 := (List.nodup_cons.mp hnd).1
          refine ih (by simp) (removeUnderline t ch) (List.nodup_cons.mp hnd).2 ?_ ?_ ?_
          · intro j hj
            have hne : j ≠ t := by
              intro he; exact hnotmem (he ▸ hj)
            have := hcnt j
            rw [if_neg hne] at this
            have hj1 : midCount j ch = 1 := hcounts j (List.mem_cons_of_mem _ hj)
            omega
          · simp only [List.length_cons] at htot ⊢
            omega
          · rw [textContentList_removeUnderline, hcont]


theorem visibleIndexed_mem (ch : List RNode) (p : Nat × List Char)
    (hp : p ∈ visibleIndexed ch) : ch.get? p.1 = some (RNode.text p.2) := by
  obtain ⟨q, hq, hfq⟩ := List.mem_filterMap.mp hp
  obtain ⟨n, hn⟩ := List.mem_iff_get?.mp hq
  rw [List.get?_enum] at hn
  cases hcq : ch.get? n with
  | none => rw [hcq] at hn; exact absurd hn (by simp)
  | some a =>
      rw [hcq] at hn
      simp only [Option.map_some'] at hn
      obtain rfl := Option.some.inj hn
      cases a with
      | text d =>
          simp only at hfq
          by_cases htr : jsTrim d = []
          · rw [if_pos htr] at hfq
            exact absurd hfq (by simp)
          · rw [if_neg htr] at hfq
            obtain rfl := Option.some.inj hfq
            simpa using hcq
      | marker i cs => exact absurd hfq (by simp)

theorem visibleIndexed_pairwise (ch : List RNode) :
    (visibleIndexed ch).Pairwise (fun a b => a.1 < b.1) := by
  have h2 : List.Pairwise (· < ·) (ch.enum.map Prod.fst) := by
    rw [List.enum_map_fst]; exact List.pairwise_lt_range _
  have h1 : List.Pairwise (fun a b : Nat × RNode => a.1 < b.1) ch.enum :=
    (List.pairwise_map).mp h2
  refine List.Pairwise.filterMap _ ?_ h1
  intro a a' hlt b hb b' hb'
  have e1 : b.1 = a.1 := by
    cases ha : a.2 with
    | text dd =>
        rw [Option.mem_def] at hb
        simp only [ha] at hb
        by_cases htr : jsTrim dd = []
        · rw [if_pos htr] at hb; exact absurd hb (by simp)
        · rw [if_neg htr] at hb
          obtain rfl := Option.some.inj hb.symm
          rfl
    | marker i cs =>
        rw [Option.mem_def] at hb
        simp only [ha] at hb
        exact absurd hb (by simp)
  have e2 : b'.1 = a'.1 := by
    cases ha : a'.2 with
    | text dd =>
        rw [Option.mem_def] at hb'
        simp only [ha] at hb'
        by_cases htr : jsTrim dd = []
        · rw [if_pos htr] at hb'; exact absurd hb' (by simp)
        · rw [if_neg htr] at hb'
          obtain rfl := Option.some.inj hb'.symm
          rfl
    | marker i cs =>
        rw [Option.mem_def] at hb'
        simp only [ha] at hb'
        exact absurd hb' (by simp)
  rw [e1, e2]
  exact hlt

theorem take_drop_glue {α : Type} (n : Nat) (l X : List α) :
    l.take n ++ (l.drop n ++ X) = l ++ X := by
  rw [← List.append_assoc, List.take_append_drop]

theorem take_slice_drop {α : Type} (s e : Nat) (h : s ≤ e) (l : List α) :
    l.take s ++ ((l.take e).drop s ++ l.drop e) = l := by
  rw [List.drop_take]
  have he : l.drop e = List.drop (e - s) (l.drop s) := by
    rw [List.drop_drop]
    congr 1
    omega
  rw [he, List.take_append_drop, List.take_append_drop]

theorem drop_eq_cons_of_get {α : Type} (l : List α) (n : Nat) (a : α)
    (h : l.get? n = some a) : l.drop n = a :: l.drop (n + 1) := by
  obtain ⟨hlt, hget⟩ := List.get?_eq_some.mp h
  have h1 : l[n] = a := by simpa using hget
  rw [List.drop_eq_getElem_cons hlt, h1]

theorem list_decomp_one {α : Type} (l : List α) (n : Nat) (a : α)
    (ha : l.get? n = some a) :
    l = l.take n ++ a :: l.drop (n + 1) := by
  conv_lhs => rw [← List.take_append_drop n l]
  rw [drop_eq_cons_of_get l n a ha]

theorem list_decomp_two {α : Type} (l : List α) (sn en : Nat) (a b : α)
    (h : sn < en) (ha : l.get? sn = some a) (hb : l.get? en = some b) :
    l = l.take sn ++
      a :: ((l.drop (sn + 1)).take (en - sn - 1) ++ b :: l.drop (en + 1)) := by
  have hmid : l.drop (sn + 1) =
      (l.drop (sn + 1)).take (en - sn - 1) ++ b :: l.drop (en + 1) := by
    conv_lhs => rw [← List.take_append_drop (en - sn - 1) (l.drop (sn + 1))]
    rw [List.drop_drop]
    have heq2 : sn + 1 + (en - sn - 1) = en := by omega
    rw [heq2, drop_eq_cons_of_get l en b hb]
  conv_lhs => rw [← List.take_append_drop sn l]
  rw [drop_eq_cons_of_get l sn a ha]
  congr 1
  congr 1


theorem createRangeGo_spec (ch : List RNode) (s e : Int) :
    ∀ (nodes : List (Nat × List Char)) (cur : Int) (sf : Option (Nat × Nat))
      (r : DomRange),
    (∀ p ∈ nodes, ch.get? p.1 = some (RNode.text p.2)) →
    nodes.Pairwise (fun a b => a.1 < b.1) →
    (∀ q : Nat × Nat, sf = some q →
      (∃ dd, ch.get? q.1 = some (RNode.text dd)) ∧ ∀ p ∈ nodes, q.1 < p.1) →
    createRangeGo s e nodes cur sf = some r →
    (∃ ds, ch.get? r.startNode = some (RNode.text ds)) ∧
    (∃ de, ch.get? r.endNode = some (RNode.text de)) ∧
    r.startNode ≤ r.endNode := by
  intro nodes
  induction nodes with
  | nil =>
      intro cur sf r _ _ _ h
      simp [createRangeGo] at h
  | cons nd rest ih =>
      intro cur sf r hmem hpw hsf h
      obtain ⟨idx, d⟩ := nd
      have hpw2 := List.pairwise_cons.mp hpw
      have hidx : ch.get? idx = some (RNode.text d) := hmem _ (List.mem_cons_self _ _)
      rw [createRangeGo.eq_def] at h
      dsimp only at h
      cases sf with
      | none =>
          by_cases hstart : s ≥ cur ∧ s ≤ cur + (d.length : Int)
          · rw [if_pos hstart] at h
            by_cases hend : e ≥ cur ∧ e ≤ cur + (d.length : Int)
            · rw [if_pos hend] at h
              obtain rfl := Option.some.inj h
              exact ⟨⟨d, hidx⟩, ⟨d, hidx⟩, le_refl _⟩
            · rw [if_neg hend] at h
              refine ih _ _ r (fun p hp => hmem p (List.mem_cons_of_mem _ hp))
                hpw2.2 ?_ h
              intro q hq
              obtain rfl := Option.some.inj hq
              exact ⟨⟨d, hidx⟩, fun p hp => hpw2.1 p hp⟩
          · rw [if_neg hstart] at h
            by_cases hend : e ≥ cur ∧ e ≤ cur + (d.length : Int)
            · rw [if_pos hend] at h
              exact absurd h (by simp)
            · rw [if_neg hend] at h
              refine ih _ _ r (fun p hp => hmem p (List.mem_cons_of_mem _ hp))
                hpw2.2 ?_ h
              intro q hq
              exact absurd hq (by simp)
      | some q0 =>
          obtain ⟨hq0get, hq0lt⟩ := hsf q0 rfl
          by_cases hend : e ≥ cur ∧ e ≤ cur + (d.length : Int)
          · rw [if_pos hend] at h
            obtain ⟨qn, qo⟩ := q0
            obtain rfl := Option.some.inj h
            refine ⟨hq0get, ⟨d, hidx⟩, ?_⟩
            exact le_of_lt (hq0lt _ (List.mem_cons_self _ _))
          · rw [if_neg hend] at h
            refine ih _ _ r (fun p hp => hmem p (List.mem_cons_of_mem _ hp))
              hpw2.2 ?_ h
            intro q hq
            obtain rfl := Option.some.inj hq
            exact ⟨hq0get, fun p hp => hq0lt p (List.mem_cons_of_mem _ hp)⟩

theorem createRangeFromIndices_spec (ch : List RNode) (s e : Int) (r : DomRange)
    (h : createRangeFromIndices (visibleIndexed ch) s e = some r) :
    (∃ ds, ch.get? r.startNode = some (RNode.text ds)) ∧
    (∃ de, ch.get? r.endNode = some (RNode.text de)) ∧
    r.startNode ≤ r.endNode :=
  createRangeGo_spec ch s e (visibleIndexed ch) 0 none r
    (fun p hp => visibleIndexed_mem ch p hp) (visibleIndexed_pairwise ch)
    (fun q hq => absurd hq (by simp)) h


theorem take_slice_glue {α : Type} (s e : Nat) (h : s ≤ e) (l X : List α) :
    l.take s ++ ((l.take e).drop s ++ (l.drop e ++ X)) = l ++ X := by
  rw [← List.append_assoc ((l.take e).drop s), ← List.append_assoc (l.take s),
      take_slice_drop s e h l]

theorem wrapRange_spec (ch : List RNode) (m : Nat) (r : DomRange)
    (hse : r.startNode ≤ r.endNode) (ds de : List Char)
    (hs : ch.get? r.startNode = some (RNode.text ds))
    (he : ch.get? r.endNode = some (RNode.text de)) :
    textContentList (wrapRange m r ch) = textContentList ch ∧
    (∀ j, midCount j (wrapRange m r ch) =
      midCount j ch + (if m = j then 1 else 0)) ∧
    markerTotal (wrapRange m r ch) = markerTotal ch + 1 := by
  by_cases heqn : r.startNode = r.endNode
  · rw [wrapRange, if_pos heqn, hs]
    dsimp only
    have hdec := list_decomp_one ch r.startNode (RNode.text ds) hs
    have hmin : min r.startOffset r.endOffset ≤ r.endOffset := min_le_right _ _
    by_cases hlt : min r.startOffset r.endOffset < r.endOffset
    · rw [if_pos hlt]
      refine ⟨?_, ?_, ?_⟩
      · conv_rhs => rw [hdec]
        rw [textContentList_append, textContentList_append]
        simp only [textContentList, List.append_nil, List.nil_append,
          List.append_assoc]
        congr 1
        rw [take_slice_glue _ _ hmin]
        rw [textContentList_append]
        simp only [textContentList, List.append_assoc]
      · intro j
        conv_rhs => rw [hdec]
        rw [midCount_append, midCount_append, midCount_append]
        simp only [midCount]
        by_cases hmj : m = j
        · simp only [if_pos hmj]; omega
        · simp only [if_neg hmj]; omega
      · conv_rhs => rw [hdec]
        rw [markerTotal_append, markerTotal_append, markerTotal_append]
        simp only [markerTotal]
        omega
    · rw [if_neg hlt]
      have hseq : min r.startOffset r.endOffset = r.endOffset := by omega
      rw [hseq]
      refine ⟨?_, ?_, ?_⟩
      · conv_rhs => rw [hdec]
        rw [textContentList_append, textContentList_append]
        simp only [textContentList, List.append_nil, List.nil_append,
          List.append_assoc]
        congr 1
        rw [take_drop_glue]
        rw [textContentList_append]
        simp only [textContentList, List.append_assoc]
      · intro j
        conv_rhs => rw [hdec]
        rw [midCount_append, midCount_append, midCount_append]
        simp only [midCount]
        by_cases hmj : m = j
        · simp only [if_pos hmj]; omega
        · simp only [if_neg hmj]; omega
      · conv_rhs => rw [hdec]
        rw [markerTotal_append, markerTotal_append, markerTotal_append]
        simp only [markerTotal]
        omega
  · have hne : r.startNode < r.endNode := lt_of_le_of_ne hse heqn
    rw [wrapRange, if_neg heqn, hs, he]
    dsimp only
    have hdec := list_decomp_two ch r.startNode r.endNode
      (RNode.text ds) (RNode.text de) hne hs he
    refine ⟨?_, ?_, ?_⟩
    · conv_rhs => rw [hdec]
      rw [textContentList_append, textContentList_append]
      simp only [textContentList, textContentList_append, List.append_nil,
        List.nil_append, List.append_assoc]
      congr 1
      rw [take_drop_glue, take_drop_glue]
    · intro j
      conv_rhs => rw [hdec]
      rw [midCount_append, midCount_append, midCount_append]
      simp only [midCount, midCount_append]
      by_cases hmj : m = j
      · simp only [if_pos hmj]; omega
      · simp only [if_neg hmj]; omega
    · conv_rhs => rw [hdec]
      rw [markerTotal_append, markerTotal_append, markerTotal_append]
      simp only [markerTotal, markerTotal_append]
      omega


theorem renderSingleUnderline_spec (mId : Nat) (s e : Int) (ch ch2 : List RNode)
    (b : Bool) (h : renderSingleUnderline mId s e ch = (ch2, b)) :
    (b = false ∧ ch2 = ch) ∨
    (b = true ∧ textContentList ch2 = textContentList ch ∧
      (∀ j, midCount j ch2 = midCount j ch + (if mId = j then 1 else 0)) ∧
      markerTotal ch2 = markerTotal ch + 1) := by
  rw [renderSingleUnderline] at h
  cases hr : createRangeFromIndices (visibleIndexed ch) s e with
  | none =>
      rw [hr] at h
      obtain ⟨h1, h2⟩ := Prod.mk.injEq .. ▸ h
      exact Or.inl ⟨h2.symm, h1.symm⟩
  | some r =>
      rw [hr] at h
      obtain ⟨⟨ds, hsg⟩, ⟨de, heg⟩, hse⟩ := createRangeFromIndices_spec ch s e r hr
      obtain ⟨hc, hm, ht⟩ := wrapRange_spec ch mId r hse ds de hsg heg
      obtain ⟨h1, h2⟩ := Prod.mk.injEq .. ▸ h
      subst h1
      exact Or.inr ⟨h2.symm, hc, hm, ht⟩

/-- Invariant maintained over the render fold on a normalized single-text
target. -/
def RenderInv (d : List Char) (st : RenderState) : Prop :=
  textContentList st.children = d ∧
  st.tracked.Nodup ∧
  (∀ j ∈ st.tracked, midCount j st.children = 1) ∧
  (∀ j, j ∉ st.tracked → midCount j st.children = 0) ∧
  markerTotal st.children = st.tracked.length ∧
  (∀ j ∈ st.tracked, j < st.nextId) ∧
  (st.tracked = [] → st.children = [RNode.text d])

theorem renderStep_inv (d : List Char) (st : RenderState) (i : RIssue)
    (h : RenderInv d st) : RenderInv d (renderStep st i) := by
  obtain ⟨hc, hnd, h1, h0, htot, hlt, hemp⟩ := h
  rw [renderStep]
  cases hrs : renderSingleUnderline st.nextId i.startIndex i.endIndex st.children with
  | mk ch2 b =>
      rcases renderSingleUnderline_spec _ _ _ _ _ _ hrs with
        ⟨hb, hch⟩ | ⟨hb, hcc, hmc, hmt⟩
      · subst hb; subst hch
        exact ⟨hc, hnd, h1, h0, htot, hlt, hemp⟩
      · subst hb
        dsimp only
        have hnotin : st.nextId ∉ st.tracked := fun hmem =>
          absurd (hlt _ hmem) (lt_irrefl _)
        refine ⟨?_, ?_, ?_, ?_, ?_, ?_, ?_⟩
        · rw [hcc, hc]
        · simp only [List.nodup_append, List.nodup_cons, List.nodup_nil]
          refine ⟨hnd, ⟨by simp, trivial⟩, ?_⟩
          intro a ha hb2
          simp only [List.mem_singleton] at hb2
          subst hb2
          exact hnotin ha
        · intro j hj
          rcases List.mem_append.mp hj with hj1 | hj2
          · have hne : st.nextId ≠ j := fun he => hnotin (he ▸ hj1)
            rw [hmc j, if_neg hne, h1 j hj1]
          · simp only [List.mem_singleton] at hj2
            subst hj2
            rw [hmc st.nextId, if_pos rfl, h0 _ hnotin]
        · intro j hj
          have hj1 : j ∉ st.tracked := fun hmem =>
            hj (List.mem_append.mpr (Or.inl hmem))
          have hj2 : st.nextId ≠ j := fun he =>
            hj (List.mem_append.mpr (Or.inr (by simp [he])))
          rw [hmc j, if_neg hj2, h0 j hj1]
        · rw [hmt, htot, List.length_append, List.length_singleton]
        · intro j hj
          rcases List.mem_append.mp hj with hj1 | hj2
          · exact Nat.lt_succ_of_lt (hlt j hj1)
          · simp only [List.mem_singleton] at hj2
            subst hj2
            exact Nat.lt_succ_self _
        · intro habs
          exact absurd habs (by simp)

theorem renderFold_inv (d : List Char) :
    ∀ (l : List RIssue) (st : RenderState), RenderInv d st →
      RenderInv d (l.foldl renderStep st) := by
  intro l
  induction l with
  | nil => intro st h; exact h
  | cons i rest ih => intro st h; exact ih _ (renderStep_inv d st i h)

theorem renderUnderlines_inv (d : List Char) (issues : List RIssue) :
    RenderInv d (renderUnderlines issues [RNode.text d]) := by
  rw [renderUnderlines]
  refine renderFold_inv d _ _ ?_
  refine ⟨by simp [textContentList], by simp, by simp, ?_, by simp [markerTotal],
    by simp, fun _ => rfl⟩
  intro j _
  simp [midCount]

end UnderlineRenderer

/-- C3: `render(I,E); clear(E)` is *not* an identity for every target
element `E` (see `c3_round_trip_counterexample`: `Node.normalize()` inside
`removeUnderline` merges `E`'s adjacent text nodes, changing the text-node
count).  Amended: for a target whose children are a single non-empty text
node — the normalized form of any element with non-empty text — rendering
any issue batch and then clearing restores the child list exactly, so text
content and text-node structure are both preserved. -/
theorem c3_round_trip_normalized (d : List Char) (hd : d ≠ [])
    (issues : List UnderlineRenderer.RIssue) :
    UnderlineRenderer.clearUnderlines
      (UnderlineRenderer.renderUnderlines issues
        [UnderlineRenderer.RNode.text d]) =
      [UnderlineRenderer.RNode.text d] := by
  obtain ⟨hc, hnd, h1, h0, htot, hlt, hemp⟩ :=
    UnderlineRenderer.renderUnderlines_inv d issues
  rw [UnderlineRenderer.clearUnderlines]
  by_cases ht : (UnderlineRenderer.renderUnderlines issues
      [UnderlineRenderer.RNode.text d]).tracked = []
  · rw [ht]
    simp only [List.foldl_nil]
    exact hemp ht
  · exact UnderlineRenderer.clear_fold d hd _ ht _ hnd h1 (by rw [htot]) hc

theorem c3_round_trip_normalized_witness :
    (['a', 'b', 'c'] : List Char) ≠ [] ∧
    UnderlineRenderer.clearUnderlines
      (UnderlineRenderer.renderUnderlines [⟨0, 2⟩]
        [UnderlineRenderer.RNode.text ['a', 'b', 'c']]) =
      [UnderlineRenderer.RNode.text ['a', 'b', 'c']] :=
  ⟨by decide, c3_round_trip_normalized ['a', 'b', 'c'] (by decide) [⟨0, 2⟩]⟩

namespace OverlayPositioner

/-- A rectangle in page coordinates, as produced by `getElementRect` /
`getViewportRect` (scroll offsets already folded into x/y; the
top/right/bottom/left fields are the derived edges). -/
structure Rect where
  x : ℚ
  y : ℚ
  width : ℚ
  height : ℚ
  top : ℚ
  right : ℚ
  bottom : ℚ
  left : ℚ
deriving DecidableEq

/-- Build a rect the way `getElementRect` does from page-coordinate
x/y/width/height. -/
def mkRect (x y w h : ℚ) : Rect :=
  { x := x, y := y, width := w, height := h,
    top := y, right := qadd x w, bottom := qadd y h, left := x }

/-- The twelve placement strings `calculateInitialPosition` recognizes. -/
inductive Placement
  | top | topStart | topEnd
  | bottom | bottomStart | bottomEnd
  | left | leftStart | leftEnd
  | right | rightStart | rightEnd
deriving DecidableEq

/-- A candidate position during computation. -/
structure Position where
  x : ℚ
  y : ℚ
  placement : Placement
deriving DecidableEq

/-- `OverlayPositioner.calculateInitialPosition`. -/
def calculateInitialPosition (referenceRect floatingRect : Rect)
    (placement : Placement) (offset : ℚ) : Position :=
  match placement with
  | .top =>
      { x := qadd referenceRect.x
          (qdiv (qsub referenceRect.width floatingRect.width) (mkRat 2 1)),
        y := qsub (qsub referenceRect.y floatingRect.height) offset,
        placement := .top }
  | .topStart =>
      { x := referenceRect.x,
        y := qsub (qsub referenceRect.y floatingRect.height) offset,
        placement := .topStart }
  | .topEnd =>
      { x := qsub (qadd referenceRect.x referenceRect.width) floatingRect.width,
        y := qsub (qsub referenceRect.y floatingRect.height) offset,
        placement := .topEnd }
  | .bottom =>
      { x := qadd referenceRect.x
          (qdiv (qsub referenceRect.width floatingRect.width) (mkRat 2 1)),
        y := qadd (qadd referenceRect.y referenceRect.height) offset,
        placement := .bottom }
  | .bottomStart =>
      { x := referenceRect.x,
        y := qadd (qadd referenceRect.y referenceRect.height) offset,
        placement := .bottomStart }
  | .bottomEnd =>
      { x := qsub (qadd referenceRect.x referenceRect.width) floatingRect.width,
        y := qadd (qadd referenceRect.y referenceRect.height) offset,
        placement := .bottomEnd }
  | .left =>
      { x := qsub (qsub referenceRect.x floatingRect.width) offset,
        y := qadd referenceRect.y
          (qdiv (qsub referenceRect.height floatingRect.height) (mkRat 2 1)),
        placement := .left }
  | .leftStart =>
      { x := qsub (qsub referenceRect.x floatingRect.width) offset,
        y := referenceRect.y,
        placement := .leftStart }
  | .leftEnd =>
      { x := qsub (qsub referenceRect.x floatingRect.width) offset,
        y := qsub (qadd referenceRect.y referenceRect.height) floatingRect.height,
        placement := .leftEnd }
  | .right =>
      { x := qadd (qadd referenceRect.x referenceRect.width) offset,
        y := qadd referenceRect.y
          (qdiv (qsub referenceRect.height floatingRect.height) (mkRat 2 1)),
        placement := .right }
  | .rightStart =>
      { x := qadd (qadd referenceRect.x referenceRect.width) offset,
        y := referenceRect.y,
        placement := .rightStart }
  | .rightEnd =>
      { x := qadd (qadd referenceRect.x referenceRect.width) offset,
        y := qsub (qadd referenceRect.y referenceRect.height) floatingRect.height,
        placement := .rightEnd }

/-- `detectOverflows` flags. -/
structure Overflows where
  top : Bool
  right : Bool
  bottom : Bool
  left : Bool
deriving DecidableEq

/-- `OverlayPositioner.detectOverflows`. -/
def detectOverflows (x y : ℚ) (floatingRect boundary : Rect) : Overflows :=
  { top := qlt y boundary.top,
    right := qlt boundary.right (qadd x floatingRect.width),
    bottom := qlt boundary.bottom (qadd y floatingRect.height),
    left := qlt x boundary.left }

/-- `Object.values(overflows).filter(Boolean).length`. -/
def overflowCount (o : Overflows) : Nat :=
  (if o.top then 1 else 0) + (if o.right then 1 else 0) +
    (if o.bottom then 1 else 0) + (if o.left then 1 else 0)

/-- `OverlayPositioner.getFlippedPlacement` (total `flipMap`). -/
def getFlippedPlacement : Placement → Placement
  | .top => .bottom
  | .topStart => .bottomStart
  | .topEnd => .bottomEnd
  | .bottom => .top
  | .bottomStart => .topStart
  | .bottomEnd => .topEnd
  | .left => .right
  | .leftStart => .rightStart
  | .leftEnd => .rightEnd
  | .right => .left
  | .rightStart => .leftStart
  | .rightEnd => .leftEnd

/-- `OverlayPositioner.applyFlip`.  `trackedRef` is the value the
expression `this.activeElements.get(document.querySelector(
'[data-positioning]'))?.positionData?.referenceRect` resolves to: `none`
whenever no previously positioned element carries `data-positioning`
(in particular on a fresh positioner, whose `activeElements` map is
empty), in which case the `if (referenceRect)` guard skips the whole flip
attempt. -/
def applyFlip (position : Position) (floatingRect boundary : Rect)
    (placement : Placement) (offset : ℚ) (trackedRef : Option Rect) :
    Position :=
  let overflows := detectOverflows position.x position.y floatingRect boundary
  if !overflows.top && !overflows.bottom && !overflows.left && !overflows.right
  then position
  else
    let flippedPlacement := getFlippedPlacement placement
    if flippedPlacement ≠ placement then
      match trackedRef with
      | some referenceRect =>
          let flippedPosition :=
            calculateInitialPosition referenceRect floatingRect
              flippedPlacement offset
          let flippedOverflows :=
            detectOverflows flippedPosition.x flippedPosition.y
              floatingRect boundary
          if overflowCount flippedOverflows < overflowCount overflows then
            flippedPosition
          else position
      | none => position
    else position

/-- `OverlayPositioner.applyShift`. -/
def applyShift (position : Position) (floatingRect boundary : Rect)
    (padding : ℚ) : Position :=
  let leftOverflow := qsub (qadd boundary.left padding) position.x
  let rightOverflow :=
    qsub (qadd position.x floatingRect.width) (qsub boundary.right padding)
  let x :=
    if qlt (mkRat 0 1) leftOverflow then qadd position.x leftOverflow
    else if qlt (mkRat 0 1) rightOverflow then qsub position.x rightOverflow
    else position.x
  let topOverflow := qsub (qadd boundary.top padding) position.y
  let bottomOverflow :=
    qsub (qadd position.y floatingRect.height) (qsub boundary.bottom padding)
  let y :=
    if qlt (mkRat 0 1) topOverflow then qadd position.y topOverflow
    else if qlt (mkRat 0 1) bottomOverflow then qsub position.y bottomOverflow
    else position.y
  { position with x := x, y := y }

/-- The rounded output of `computePosition`. -/
structure PositionData where
  x : Int
  y : Int
  placement : Placement
deriving DecidableEq

/-- `OverlayPositioner.computePosition` (arrow omitted: `config.arrow` is
`null` by default and does not affect x/y/placement). -/
def computePosition (referenceRect floatingRect viewport : Rect)
    (placement : Placement) (offset padding : ℚ) (flip shift : Bool)
    (boundaryOpt : Option Rect) (trackedRef : Option Rect) : PositionData :=
  let boundary := match boundaryOpt with | some b => b | none => viewport
  let p0 := calculateInitialPosition referenceRect floatingRect placement offset
  let p1 :=
    if flip then applyFlip p0 floatingRect boundary placement offset trackedRef
    else p0
  let p2 := if shift then applyShift p1 floatingRect boundary padding else p1
  { x := jsRound p2.x, y := jsRound p2.y, placement := p2.placement }

/-- `OverlayPositioner.position` on a fresh positioner with default
options (`offset 8`, `padding 10`, `flip`/`shift` on, no explicit
boundary): `activeElements` is empty and no element carries
`data-positioning` yet, so `applyFlip`'s `referenceRect` lookup yields
`undefined`. -/
def positionFresh (referenceRect floatingRect viewport : Rect)
    (placement : Placement) : PositionData :=
  computePosition referenceRect floatingRect viewport placement
    (mkRat 8 1) (mkRat 10 1) true true none none

end OverlayPositioner

/-- C8: for a reference rect near the top edge of a 768px-tall viewport
(`{x: 400, y: 5, w: 100, h: 20}`) and a 200×100 floating box requested at
`placement: 'top'` with the default options, the claim expects the
position to resolve to `placement: 'bottom'` below the reference (y = 33).
The code instead returns `placement: 'top'` with `y = 10`: `applyFlip`
reads the reference rect from
`activeElements.get(document.querySelector('[data-positioning]'))`, which
is `undefined` during the first `position()` call (the map is only
populated, and the attribute only set, *after* `computePosition` returns),
so the flip branch is skipped and only `applyShift` moves the overflowing
box down to the padding line.  The third conjunct shows the flip logic
itself would produce the claimed answer had the reference rect been
available — the lookup is the sole blocker.  (The entire
`OverlayPositioner.js` file is commented out in the repository; this
models the commented-out implementation the spec describes.) -/
theorem c8_flip_never_fires_on_fresh_positioner :
    OverlayPositioner.positionFresh
        (OverlayPositioner.mkRect (mkRat 400 1) (mkRat 5 1) (mkRat 100 1) (mkRat 20 1))
        (OverlayPositioner.mkRect (mkRat 0 1) (mkRat 0 1) (mkRat 200 1) (mkRat 100 1))
        (OverlayPositioner.mkRect (mkRat 0 1) (mkRat 0 1) (mkRat 1024 1) (mkRat 768 1))
        OverlayPositioner.Placement.top =
      { x := 350, y := 10, placement := OverlayPositioner.Placement.top } ∧
    (OverlayPositioner.positionFresh
        (OverlayPositioner.mkRect (mkRat 400 1) (mkRat 5 1) (mkRat 100 1) (mkRat 20 1))
        (OverlayPositioner.mkRect (mkRat 0 1) (mkRat 0 1) (mkRat 200 1) (mkRat 100 1))
        (OverlayPositioner.mkRect (mkRat 0 1) (mkRat 0 1) (mkRat 1024 1) (mkRat 768 1))
        OverlayPositioner.Placement.top).placement ≠
      OverlayPositioner.Placement.bottom ∧
    OverlayPositioner.computePosition
        (OverlayPositioner.mkRect (mkRat 400 1) (mkRat 5 1) (mkRat 100 1) (mkRat 20 1))
        (OverlayPositioner.mkRect (mkRat 0 1) (mkRat 0 1) (mkRat 200 1) (mkRat 100 1))
        (OverlayPositioner.mkRect (mkRat 0 1) (mkRat 0 1) (mkRat 1024 1) (mkRat 768 1))
        OverlayPositioner.Placement.top (mkRat 8 1) (mkRat 10 1) true true none
        (some (OverlayPositioner.mkRect (mkRat 400 1) (mkRat 5 1) (mkRat 100 1) (mkRat 20 1))) =
      { x := 350, y := 33, placement := OverlayPositioner.Placement.bottom } := by
  refine ⟨?_, ?_, ?_⟩ <;> decide
